import Mathlib

/-!
Shallow embedding of the xcraft-contrib-wpkg repository orchestrator
(`src/wpkg.js`, modern revision, and `src/lib/bin.js`, modern revision).

Pure data transformations of the source are translated into executable
Lean definitions; filesystem state is passed explicitly (directory
contents as lists, JSON catalogs as records, association lists for
keyed directories).  External collaborators (the `wpkg` binary, the
`wpkg-debversion` comparator, the regex engine of `xcraft-core-utils`)
are parameters of the definitions, except where a concrete claim needs
the comparator's standard behaviour, in which case a comparator
modelled from the spec is supplied and said so in its doc comment.
-/

namespace WpkgModel

/-! ### Generic association-list helpers

The JS code keys plain objects by strings (insertion ordered); these
helpers model object get / set with the same replace-in-place-or-append
behaviour. -/

/-- Lookup in an association list (first binding wins, like a JS object). -/
def alGet? {κ ν : Type} [DecidableEq κ] (l : List (κ × ν)) (k : κ) : Option ν :=
  (l.find? (fun p => p.1 = k)).map (·.2)

/-- Lookup with a default value. -/
def alGetD {κ ν : Type} [DecidableEq κ] (l : List (κ × ν)) (k : κ) (d : ν) : ν :=
  (alGet? l k).getD d

/-- Set a key: replace the first existing binding in place, else append
(JS object property assignment preserves insertion order). -/
def alSet {κ ν : Type} [DecidableEq κ] : List (κ × ν) → κ → ν → List (κ × ν)
  | [], k, v => [(k, v)]
  | p :: t, k, v => if p.1 = k then (k, v) :: t else p :: alSet t k v

theorem alGet?_alSet_self {κ ν : Type} [DecidableEq κ] (l : List (κ × ν)) (k : κ) (v : ν) :
    alGet? (alSet l k v) k = some v := by
  induction l with
  | nil => simp [alSet, alGet?]
  | cons p t ih =>
    by_cases h : p.1 = k
    · simp [alSet, h, alGet?]
    · simpa [alSet, h, alGet?, List.find?] using ih

theorem alGet?_alSet_ne {κ ν : Type} [DecidableEq κ] (l : List (κ × ν)) (k k' : κ) (v : ν)
    (h : k' ≠ k) : alGet? (alSet l k v) k' = alGet? l k' := by
  have hk : (decide (k = k')) = false := decide_eq_false (fun hc => h hc.symm)
  induction l with
  | nil => simp [alSet, alGet?, List.find?, hk]
  | cons p t ih =>
    by_cases hp : p.1 = k
    · have hp' : (decide (p.1 = k')) = false :=
        decide_eq_false (fun hc => h (hc.symm.trans hp))
      simp [alSet, hp, alGet?, List.find?, hk, hp']
    · by_cases hq : p.1 = k'
      · simp [alSet, hp, alGet?, List.find?, hq, h]
      · have hq' : (decide (p.1 = k')) = false := decide_eq_false hq
        simp only [alSet, if_neg hp]
        simpa [alGet?, List.find?, hq'] using ih

theorem alGetD_alSet_self {κ ν : Type} [DecidableEq κ] (l : List (κ × ν)) (k : κ) (v d : ν) :
    alGetD (alSet l k v) k d = v := by
  simp [alGetD, alGet?_alSet_self]

theorem alGetD_alSet_ne {κ ν : Type} [DecidableEq κ] (l : List (κ × ν)) (k k' : κ) (v d : ν)
    (h : k' ≠ k) : alGetD (alSet l k v) k' d = alGetD l k' d := by
  simp [alGetD, alGet?_alSet_ne _ _ _ _ h]

/-! ### First-occurrence deduplication

Models the key set of a JS object populated by pushing entries grouped
by name: keys appear in order of first occurrence. -/

/-- Deduplication keeping the first occurrence, with an accumulator of
already seen keys. -/
def dedupFirstAux (seen : List String) : List String → List String
  | [] => []
  | a :: l => if a ∈ seen then dedupFirstAux seen l else a :: dedupFirstAux (a :: seen) l

/-- Deduplication keeping the first occurrence of each element. -/
def dedupFirst (l : List String) : List String := dedupFirstAux [] l

theorem mem_dedupFirstAux (seen l : List String) (x : String) :
    x ∈ dedupFirstAux seen l ↔ x ∈ l ∧ x ∉ seen := by
  induction l generalizing seen with
  | nil => simp [dedupFirstAux]
  | cons a t ih =>
    by_cases h : a ∈ seen
    · have ihs := ih seen
      simp only [dedupFirstAux, if_pos h]
      rw [ihs]
      constructor
      · rintro ⟨hx, hn⟩; exact ⟨List.mem_cons_of_mem _ hx, hn⟩
      · rintro ⟨hmem, hns⟩
        rcases List.mem_cons.1 hmem with rfl | hx
        · exact absurd h hns
        · exact ⟨hx, hns⟩
    · have ihs := ih (a :: seen)
      simp only [dedupFirstAux, if_neg h]
      constructor
      · intro hmem
        rcases List.mem_cons.1 hmem with rfl | hmem'
        · exact ⟨List.mem_cons_self _ _, h⟩
        · rcases ihs.1 hmem' with ⟨hx, hna⟩
          exact ⟨List.mem_cons_of_mem _ hx, fun hc => hna (List.mem_cons_of_mem _ hc)⟩
      · rintro ⟨hmem, hns⟩
        rcases List.mem_cons.1 hmem with rfl | hx
        · exact List.mem_cons_self _ _
        · by_cases hax : x = a
          · exact hax ▸ List.mem_cons_self _ _
          · refine List.mem_cons_of_mem _ (ihs.2 ⟨hx, ?_⟩)
            intro hc
            rcases List.mem_cons.1 hc with h1 | h2
            · exact hax h1
            · exact hns h2

theorem mem_dedupFirst (l : List String) (x : String) :
    x ∈ dedupFirst l ↔ x ∈ l := by
  simp [dedupFirst, mem_dedupFirstAux]

theorem nodup_dedupFirstAux (seen l : List String) :
    (dedupFirstAux seen l).Nodup := by
  induction l generalizing seen with
  | nil => simp [dedupFirstAux]
  | cons a t ih =>
    by_cases h : a ∈ seen
    · simpa [dedupFirstAux, if_pos h] using ih seen
    · simp only [dedupFirstAux, if_neg h]
      rw [List.nodup_cons]
      refine ⟨?_, ih (a :: seen)⟩
      intro hmem
      rcases (mem_dedupFirstAux _ _ _).1 hmem with ⟨_, hns⟩
      exact hns (List.mem_cons_self _ _)

theorem nodup_dedupFirst (l : List String) : (dedupFirst l).Nodup :=
  nodup_dedupFirstAux [] l

/-! ### Linear maximum scan

Both `Wpkg._archiving` (src/wpkg.js, the `toCheck` loop) and
`WpkgBin.listIndexPackages` (src/lib/bin.js, the `greater` reduction)
keep a current candidate and replace it whenever a later element beats
it under the external strict comparator.  `scanMax f c l` is that loop:
`f x y = true` means "x beats y". -/

/-- The linear scan keeping the current winner (`toCheck` / `greater`
loop of the source). -/
def scanMax {α : Type} (f : α → α → Bool) : α → List α → α
  | c, [] => c
  | c, d :: ds => scanMax f (if f d c then d else c) ds

theorem scanMax_mem {α : Type} (f : α → α → Bool) (c : α) (l : List α) :
    scanMax f c l ∈ c :: l := by
  induction l generalizing c with
  | nil => simp [scanMax]
  | cons d ds ih =>
    have h := ih (if f d c then d else c)
    simp only [scanMax]
    rcases List.mem_cons.1 h with h' | h'
    · rw [h']
      by_cases hf : f d c <;> simp [hf]
    · exact List.mem_cons_of_mem _ (List.mem_cons_of_mem _ h')

theorem scanMax_ge {α : Type} (f : α → α → Bool)
    (htrans : ∀ a b c, f a b = true → f b c = true → f a c = true)
    (c : α) (l : List α) :
    scanMax f c l = c ∨ f (scanMax f c l) c = true := by
  induction l generalizing c with
  | nil => exact Or.inl rfl
  | cons d ds ih =>
    simp only [scanMax]
    by_cases hf : f d c
    · rw [if_pos hf]
      rcases ih d with h' | h'
      · exact Or.inr (by rw [h']; exact hf)
      · exact Or.inr (htrans _ _ _ h' hf)
    · rw [if_neg hf]
      exact ih c

theorem scanMax_not_beaten {α : Type} (f : α → α → Bool)
    (htrans : ∀ a b c, f a b = true → f b c = true → f a c = true)
    (hirr : ∀ a, f a a = false)
    (c : α) (l : List α) :
    ∀ x ∈ c :: l, f x (scanMax f c l) = false := by
  induction l generalizing c with
  | nil =>
    intro x hx
    rcases List.mem_cons.1 hx with rfl | hx
    · exact hirr x
    · exact absurd hx (List.not_mem_nil x)
  | cons d ds ih =>
    intro x hx
    simp only [scanMax]
    by_cases hf : f d c
    · rw [if_pos hf]
      have hxc : x = c ∨ x ∈ d :: ds := List.mem_cons.1 hx
      rcases hxc with hxc | hxd
      · subst hxc
        by_contra hc
        have hc' : f x (scanMax f d ds) = true :=
          Bool.not_eq_false _ |>.mp hc
        rcases scanMax_ge f htrans d ds with h' | h'
        · rw [h'] at hc'
          have : f x x = true := htrans _ _ _ hc' hf
          rw [hirr x] at this
          exact Bool.false_ne_true this
        · have h2 : f x d = true := htrans _ _ _ hc' h'
          have : f x x = true := htrans _ _ _ h2 hf
          rw [hirr x] at this
          exact Bool.false_ne_true this
      · exact ih d x hxd
    · rw [if_neg hf]
      have hxc : x = c ∨ x ∈ d :: ds := List.mem_cons.1 hx
      rcases hxc with hxc | hxd
      · subst hxc
        exact ih x x (List.mem_cons_self _ _)
      · rcases List.mem_cons.1 hxd with hxd' | hxd''
        · subst hxd'
          by_contra hc
          have hc' : f x (scanMax f c ds) = true :=
            Bool.not_eq_false _ |>.mp hc
          rcases scanMax_ge f htrans c ds with h' | h'
          · rw [h'] at hc'
            exact hf hc'
          · exact hf (htrans _ _ _ hc' h')
        · exact ih c x (List.mem_cons_of_mem _ hxd'')

/-- Embedding of `maxVersion` (src/wpkg.js lines 22-37): `versions.shift()`
removes the first element of the caller's array IN PLACE, then a linear
scan over the remainder replaces the candidate whenever the external
comparator reports a strictly greater version.  An empty list yields
`undefined` in JS, modelled as `none`.  The first component is the
returned maximum; the second component is the caller's array after the
call, i.e. the tail — that mutation is visible to every caller that
keeps using the array it passed in. -/
def jsMaxVersion (gt : String → String → Bool) : List String → Option String × List String
  | [] => (none, [])
  | v :: vs => (some (scanMax gt v vs), vs)

/-! ### Base-version extraction (claim C5)

`Wpkg._baseVersion` (src/wpkg.js lines 190-192) replaces the first
match of the regex `-[^-]*` by the empty string: the regex is *not*
anchored at the end, so it removes the first `-` and the following run
of non-`-` characters.  `baseVersionLastAux` is the spec's own words
(replace the anchored `-[^-]*$` by the empty string), kept separate
for the refinement comparison. -/

/-- Embedding of `Wpkg._baseVersion`: remove the first `-` and the
non-`-` run that follows it (the leftmost match of `-[^-]*`). -/
def baseVersionAux : List Char → List Char
  | [] => []
  | c :: cs => if c = '-' then cs.dropWhile (· != '-') else c :: baseVersionAux cs

/-- String version of `baseVersionAux`. -/
def baseVersion (v : String) : String := String.mk (baseVersionAux v.data)

/-- The spec's base-version extraction (replace the anchored regex
`-[^-]*$` by the empty string): remove the last `-` together with the
trailing run of non-`-` characters, if the string ends in such a
suffix. -/
def baseVersionLastAux (cs : List Char) : List Char :=
  match cs.reverse.dropWhile (· != '-') with
  | [] => cs
  | _ :: rest => rest.reverse

/-- String version of `baseVersionLastAux`. -/
def baseVersionLast (v : String) : String := String.mk (baseVersionLastAux v.data)

theorem baseVersionAux_no_dash (cs : List Char) (h : '-' ∉ cs) :
    baseVersionAux cs = cs := by
  induction cs with
  | nil => rfl
  | cons c t ih =>
    have hc : c ≠ '-' := fun hc => h (hc ▸ List.mem_cons_self _ _)
    have ht : '-' ∉ t := fun hm => h (List.mem_cons_of_mem _ hm)
    simp [baseVersionAux, hc, ih ht]

theorem dropWhile_ne_dash_eq_nil (cs : List Char) (h : '-' ∉ cs) :
    cs.dropWhile (· != '-') = [] := by
  rw [List.dropWhile_eq_nil_iff]
  intro x hx
  simp only [bne_iff_ne, ne_eq, decide_not]
  have : x ≠ '-' := fun hc => h (hc ▸ hx)
  simp [this]

theorem baseVersionLastAux_no_dash (cs : List Char) (h : '-' ∉ cs) :
    baseVersionLastAux cs = cs := by
  have hr : '-' ∉ cs.reverse := fun hm => h (List.mem_reverse.1 hm)
  have hdrop := dropWhile_ne_dash_eq_nil cs.reverse hr
  simp [baseVersionLastAux, hdrop]

theorem baseVersionAux_one_dash (a b : List Char) (ha : '-' ∉ a) (hb : '-' ∉ b) :
    baseVersionAux (a ++ '-' :: b) = a := by
  induction a with
  | nil => simp [baseVersionAux, dropWhile_ne_dash_eq_nil b hb]
  | cons c t ih =>
    have hc : c ≠ '-' := fun hc => ha (hc ▸ List.mem_cons_self _ _)
    have ht : '-' ∉ t := fun hm => ha (List.mem_cons_of_mem _ hm)
    simp [baseVersionAux, hc, ih ht]

theorem baseVersionLastAux_one_dash (a b : List Char) (ha : '-' ∉ a) (hb : '-' ∉ b) :
    baseVersionLastAux (a ++ '-' :: b) = a := by
  have hrev : (a ++ '-' :: b).reverse = b.reverse ++ '-' :: a.reverse := by
    simp
  have hbrev : '-' ∉ b.reverse := fun hm => hb (List.mem_reverse.1 hm)
  have hnil := dropWhile_ne_dash_eq_nil b.reverse hbrev
  have hdrop2 : List.dropWhile (· != '-') (b.reverse ++ '-' :: a.reverse) = '-' :: a.reverse := by
    rw [List.dropWhile_append, hnil]
    simp [List.dropWhile]
  unfold baseVersionLastAux
  rw [hrev, hdrop2]
  simp

/-- Claim C5, counterexample: on a version with two `-` the code's
extraction (`baseVersion`, unanchored first match) disagrees with the
spec's claimed last-suffix removal (`baseVersionLast`): the code keeps
everything around the *first* suffix, not everything before the last
`-`. -/
theorem claim_C5_cex :
    baseVersion "1-2-3" = "1-3" ∧ baseVersionLast "1-2-3" = "1-2"
    ∧ baseVersion "1-2-3" ≠ baseVersionLast "1-2-3" := by
  decide

/-- Claim C5, amended: the base-version extraction of the archive
catalog removes the *first* `-`-suffix (the unanchored leftmost match
of `-[^-]*`); it coincides with the spec's last-suffix removal exactly
on versions containing at most one `-`: for such versions both return
the part before the single `-` (or the whole string when there is no
`-`). -/
theorem claim_C5 (a b : String) (ha : '-' ∉ a.data) (hb : '-' ∉ b.data) :
    baseVersion (a ++ "-" ++ b) = a ∧ baseVersion a = a
    ∧ baseVersionLast (a ++ "-" ++ b) = a ∧ baseVersionLast a = a := by
  have hdata : (a ++ "-" ++ b).data = a.data ++ '-' :: b.data := by
    simp [String.data_append]
  have hmk : String.mk a.data = a := rfl
  refine ⟨?_, ?_, ?_, ?_⟩
  · rw [baseVersion, hdata, baseVersionAux_one_dash a.data b.data ha hb]
  · rw [baseVersion, baseVersionAux_no_dash a.data ha]
  · rw [baseVersionLast, hdata, baseVersionLastAux_one_dash a.data b.data ha hb]
  · rw [baseVersionLast, baseVersionLastAux_no_dash a.data ha]

/-- Claim C5, witness: the amended theorem evaluated at the concrete
version `1.0-2`, whose base is `1.0` under both extractions. -/
theorem claim_C5_witness :
    ('-' ∉ "1.0".data) ∧ ('-' ∉ "2".data)
    ∧ (baseVersion ("1.0" ++ "-" ++ "2") = "1.0" ∧ baseVersion "1.0" = "1.0"
       ∧ baseVersionLast ("1.0" ++ "-" ++ "2") = "1.0"
       ∧ baseVersionLast "1.0" = "1.0") :=
  ⟨by decide, by decide, claim_C5 "1.0" "2" (by decide) (by decide)⟩

/-! ### Sources-list handling (claims C7 and C8)

`Wpkg.addSources` (src/wpkg.js lines 1050-1085) and
`Wpkg.removeSources` (lines 1096-1130) read the target's
`sources.list` directly (avoiding the admindir lock), split it on
newlines, trim every row, and decide whether to invoke the external
tool.  The external `--add-sources` operation is a parameter
(`toolAdd`), modelled as producing the new file content. -/

/-- Split a character list on a separator character, keeping empty
segments (the semantics of JS `String.prototype.split` with a
one-character separator, and of `String.splitOn` with a one-character
pattern), written with structural recursion so that it evaluates by
kernel reduction. -/
def splitCharAux (sep : Char) : List Char → List Char → List String
  | [], acc => [String.mk acc.reverse]
  | c :: cs, acc =>
    if c = sep then String.mk acc.reverse :: splitCharAux sep cs []
    else splitCharAux sep cs (c :: acc)

/-- Split a string on a separator character. -/
def splitChar (sep : Char) (s : String) : List String := splitCharAux sep s.data []

/-- Whitespace trimming on both ends (JS `String.prototype.trim`),
written over the character list. -/
def trimChars (s : String) : String :=
  String.mk (((s.data.dropWhile Char.isWhitespace).reverse.dropWhile
    Char.isWhitespace).reverse)

/-- Suffix test over the character lists (JS `String.prototype.endsWith`,
`String.endsWith`). -/
def strEndsWith (s post : String) : Bool := post.data.isSuffixOf s.data

/-- Character membership (JS `indexOf(c) !== -1`, `String.contains`). -/
def strContainsChar (c : Char) (s : String) : Bool := s.data.contains c

/-- Rows of a sources.list: split on newlines and trim each row
(`sources.split` on newline, then `row.trim()` for each row). -/
def trimmedRows (content : String) : List String :=
  (splitChar '\n' content).map trimChars

/-- Result of `Wpkg.addSources`: the resulting file content (`none`
models a file that never existed and was not created) and whether the
external tool was invoked. -/
structure AddSourcesResult where
  file : Option String
  invoked : Bool
deriving Repr, DecidableEq

/-- Embedding of `Wpkg.addSources`: read the file (ENOENT tolerated as
empty content), and if the trimmed rows already contain the entry,
return without invoking the tool; otherwise invoke the external
`--add-sources` operation, whose effect on the file is the abstract
`toolAdd`. -/
def addSources (toolAdd : String → String → String) (file : Option String)
    (sourcePath : String) : AddSourcesResult :=
  let sources := file.getD ""
  if sourcePath ∈ trimmedRows sources then ⟨file, false⟩
  else ⟨some (toolAdd sources sourcePath), true⟩

/-- JS `Array.prototype.indexOf`: index of the first occurrence, `-1`
when absent. -/
def jsIndexOf (s : String) : List String → Int
  | [] => -1
  | x :: xs => if x = s then 0 else (let r := jsIndexOf s xs; if r < 0 then -1 else r + 1)

/-- The externally visible effect of `Wpkg.removeSources`: either no
tool invocation at all, or an invocation of `--remove-sources` with the
given index. -/
inductive RemoveSourcesEffect where
  | noop
  | invoke (index : Int)
deriving Repr, DecidableEq

/-- Embedding of `Wpkg.removeSources`: split the sources.list on
newlines, trim rows, compute `it = indexOf(sourcePath) - 1`, return
without invoking the tool when `it < 0`, else invoke
`--remove-sources it`. -/
def removeSources (fileContent : String) (sourcePath : String) : RemoveSourcesEffect :=
  let l := trimmedRows fileContent
  let it : Int := jsIndexOf sourcePath l - 1
  if it < 0 then .noop else .invoke it

/-- Claim C7: the code computes `indexOf - 1` over the 0-based row
index, so an entry sitting on the *first* line yields `-1` and the
function returns without any tool invocation — the entry is never
removed — while an entry on 1-based line `k ≥ 2` invokes the tool with
index `k - 2`, not `k`.  The absent-entry no-op does hold. -/
theorem claim_C7 :
    removeSources "deb file:/r stable main" "deb file:/r stable main" = .noop
    ∧ removeSources "first\ndeb file:/r stable main" "deb file:/r stable main" = .invoke 0
    ∧ removeSources "first\nsecond" "absent" = .noop := by
  decide

/-! ### buildFromSrc dispatch (claim C6) -/

/-- The externally visible dispatch of `Wpkg.buildFromSrc` when called
without a package name. -/
inductive BuildFromSrcEffect where
  | nothingToBuild
  | buildAll
  | lookupPackage (name : String)
deriving Repr, DecidableEq

/-- Embedding of the dispatch of `Wpkg.buildFromSrc` (src/wpkg.js
lines 583-641): with no package name it checks `fs.existsSync` on the
`sources` subdirectory — failing with the nothing-to-build error only
when the directory does not exist — and otherwise lists the `.deb`
files (only to log them) and spawns the builder over the whole
repository; with a package name it resolves the `-src` package. -/
def buildFromSrc (packageName : Option String) (sourcesDirExists : Bool)
    (srcFiles : List String) : BuildFromSrcEffect :=
  match packageName with
  | some n => .lookupPackage n
  | none =>
    if sourcesDirExists then
      let _logged := srcFiles.filter (·.endsWith ".deb")
      .buildAll
    else .nothingToBuild

/-- Claim C6, counterexample: an *existing but empty* `sources`
subdirectory does not produce the nothing-to-build error — the builder
is spawned on the whole repository; only a missing directory
short-circuits. -/
theorem claim_C6_cex :
    buildFromSrc none true [] ≠ .nothingToBuild
    ∧ buildFromSrc none true [] = .buildAll := by
  decide

/-- Claim C6, amended: `buildFromSrc(null, …)` fails with the
nothing-to-build error exactly when the `sources` subdirectory does not
exist; when the directory exists — even empty — the builder is spawned
on the whole source repository (the directory listing is only
logged). -/
theorem claim_C6 (srcFiles : List String) :
    buildFromSrc none false srcFiles = .nothingToBuild
    ∧ buildFromSrc none true srcFiles = .buildAll := by
  constructor <;> rfl

/-- Claim C8: `addSources` is idempotent.  If the external
`--add-sources` effect of the first call leaves the entry among the
trimmed rows of the resulting file (hypothesis `htool`), then a second
call with the same entry reads the file, finds the entry, performs no
external invocation and leaves the file unchanged.  (When the first
call was already a no-op the same holds directly.) -/
theorem claim_C8 (toolAdd : String → String → String) (file : Option String)
    (s : String)
    (htool : s ∈ trimmedRows (toolAdd (file.getD "") s)) :
    addSources toolAdd (addSources toolAdd file s).file s
      = ⟨(addSources toolAdd file s).file, false⟩ := by
  by_cases h : s ∈ trimmedRows (file.getD "")
  · simp [addSources, h]
  · simp [addSources, h, htool]

/-- Claim C8, witness: concrete idempotence with an external tool that
writes the entry as the file content. -/
theorem claim_C8_witness :
    addSources (fun _ r => r)
        (addSources (fun _ r => r) none "deb file:/r stable main").file
        "deb file:/r stable main"
      = ⟨(addSources (fun _ r => r) none "deb file:/r stable main").file, false⟩ :=
  claim_C8 (fun _ r => r) none "deb file:/r stable main" (by decide)

/-! ### Index entries and filters (claims C3 and C4)

`WpkgBin.listIndexPackages` (src/lib/bin.js lines 877-1003) shapes each
parsed index record into `{distrib, name, version, arch,
ctrlDistribution}` (`distrib` null when the file name has no slash,
`arch` null when the architecture reports `source`), applies the
filters, groups by name and — in `greater` mode — reduces every group
to the single entry winning the `isV1Greater` linear scan. -/

/-- The five attributes of a shaped index entry, in the object-key
order of the source. -/
inductive Attr where
  | distrib
  | name
  | version
  | arch
  | ctrlDistribution
deriving Repr, DecidableEq

/-- All attributes (`Object.keys(deb)`). -/
def attrList : List Attr := [.distrib, .name, .version, .arch, .ctrlDistribution]

/-- A shaped index entry. -/
structure IndexEntry where
  distrib : Option String
  name : String
  version : String
  arch : Option String
  ctrlDistribution : String
deriving Repr, DecidableEq

/-- Attribute projection (`deb[it]`), `none` modelling JS null. -/
def IndexEntry.attr (e : IndexEntry) : Attr → Option String
  | .distrib => e.distrib
  | .name => some e.name
  | .version => some e.version
  | .arch => e.arch
  | .ctrlDistribution => some e.ctrlDistribution

/-- JS truthiness of an attribute value: null, undefined and the empty
string are all falsy. -/
def truthyVal : Option String → Option String
  | none => none
  | some s => if s = "" then none else some s

/-- A filter value, mirroring the dual-type `toRegexp` helper of
xcraft-core-utils: a plain string is promoted to an anchored regex —
for the metacharacter-free strings the orchestrator passes this is an
exact-match test — and an already-compiled regex is an abstract
predicate on strings (the regex engine is an external collaborator). -/
inductive Pattern where
  | lit (s : String)
  | re (test : String → Bool)

/-- Evaluate a filter value on an attribute value (`toRegexp(filters[it]).test(deb[it])`). -/
def Pattern.test : Pattern → String → Bool
  | .lit s, v => v == s
  | .re t, v => t v

/-- Embedding of the filter application of `WpkgBin.listIndexPackages`:
`Object.keys(deb).every((it) => { if (!deb[it] || !filters?.[it])
return true; return toRegexp(filters[it]).test(deb[it]); })`.  Note
that a falsy entry attribute passes *any* filter. -/
def filterMatch (f : Attr → Option Pattern) (e : IndexEntry) : Bool :=
  attrList.all fun a =>
    match truthyVal (e.attr a), f a with
    | some v, some p => p.test v
    | _, _ => true

/-- A source-package entry: its architecture is null. -/
def c4Entry : IndexEntry := ⟨none, "libx", "1.0", none, "sources"⟩

/-- A filter constraining the `arch` attribute. -/
def c4Filter : Attr → Option Pattern := fun a =>
  match a with
  | .arch => some (.lit "amd64")
  | _ => none

/-- Claim C4, counterexample: an entry whose `arch` attribute is absent
*does* match a filter that constrains `arch` — the falsy-attribute
check short-circuits to true before the filter is ever tested — whereas
the claim requires such an entry not to match. -/
theorem claim_C4_cex :
    c4Entry.attr .arch = none
    ∧ (c4Filter .arch).isSome = true
    ∧ filterMatch c4Filter c4Entry = true := by
  constructor
  · rfl
  · constructor
    · rfl
    · rfl

/-- Claim C4, amended: a filter matches an entry iff, for each filter
key present, the entry's value for that attribute is *either absent
(falsy: null or empty) — in which case that key passes unconditionally
— or* satisfies the filter's test (a plain-string filter being promoted
to an anchored regex).  In particular an entry whose attribute is
absent matches every filter on that attribute. -/
theorem claim_C4 (f : Attr → Option Pattern) (e : IndexEntry) :
    filterMatch f e = true ↔
      ∀ a : Attr, ∀ p, f a = some p → ∀ v, truthyVal (e.attr a) = some v →
        p.test v = true := by
  have hmem : ∀ a : Attr, a ∈ attrList := by
    intro a
    cases a <;> simp [attrList]
  rw [filterMatch, List.all_eq_true]
  constructor
  · intro h a p hp v hv
    have := h a (hmem a)
    rw [hv, hp] at this
    exact this
  · intro h a _
    cases hv : truthyVal (e.attr a) with
    | none => simp
    | some v =>
      cases hp : f a with
      | none => simp
      | some p =>
        simpa using h a p hp v hv

/-- Version comparison lifted to entries: `x` beats `y` when the
external comparator reports `x.version > y.version`. -/
def entBeats (gt : String → String → Bool) (x y : IndexEntry) : Bool :=
  gt x.version y.version

/-- Filter-matching entries of the repository index. -/
def matchingOf (f : Attr → Option Pattern) (entries : List IndexEntry) : List IndexEntry :=
  entries.filter (filterMatch f)

/-- The group of filter-matching entries sharing a name (the per-name
array the source pushes entries into). -/
def groupOf (f : Attr → Option Pattern) (entries : List IndexEntry) (m : String) :
    List IndexEntry :=
  (matchingOf f entries).filter (fun e => e.name == m)

/-- The single binding retained for a name in `greater` mode: the
winner of the linear `isV1Greater` scan over the name's group (a
singleton group skips the scan, which the scan reproduces).  The empty
case cannot occur for names taken from the matching list. -/
def pickOf (gt : String → String → Bool) (f : Attr → Option Pattern)
    (entries : List IndexEntry) (m : String) : String × IndexEntry :=
  match groupOf f entries m with
  | [] => (m, ⟨none, m, "", none, ""⟩)
  | d :: ds => (m, scanMax (entBeats gt) d ds)

/-- Embedding of `WpkgBin.listIndexPackages` with `{greater: true}`:
filter the shaped entries, group them by name (keys in first-occurrence
order), and bind each name to the scan winner of its group.  (The
source then projects each entry to a payload with a rebuilt relative
`file` path; `Wpkg.listIndexPackages` assigns one such mapping to every
existing repository path.) -/
def listIndexGreater (gt : String → String → Bool) (f : Attr → Option Pattern)
    (entries : List IndexEntry) : List (String × IndexEntry) :=
  (dedupFirst ((matchingOf f entries).map (·.name))).map (pickOf gt f entries)

theorem pickOf_fst (gt : String → String → Bool) (f : Attr → Option Pattern)
    (entries : List IndexEntry) (m : String) : (pickOf gt f entries m).1 = m := by
  cases h : groupOf f entries m <;> simp [pickOf, h]

theorem filter_beq_of_nodup {α : Type} [DecidableEq α] (l : List α) (n : α)
    (hnd : l.Nodup) (hmem : n ∈ l) : l.filter (fun m => m == n) = [n] := by
  induction l with
  | nil => exact absurd hmem (List.not_mem_nil n)
  | cons a t ih =>
    rcases List.nodup_cons.1 hnd with ⟨hna, hnt⟩
    rcases List.mem_cons.1 hmem with rfl | hmem'
    · have hnone : t.filter (fun m => m == n) = [] := by
        rw [List.filter_eq_nil_iff]
        intro b hb
        simp only [beq_iff_eq]
        intro hbn
        exact hna (hbn ▸ hb)
      simp [List.filter, hnone]
    · have hne : a ≠ n := fun hc => hna (hc ▸ hmem')
      have : (a == n) = false := beq_eq_false_iff_ne.2 hne
      simp [List.filter, this, ih hnt hmem']

theorem filter_of_map {α β : Type} (g : α → β) (p : β → Bool) (l : List α) :
    (l.map g).filter p = (l.filter (fun a => p (g a))).map g := by
  induction l with
  | nil => rfl
  | cons a t ih =>
    by_cases h : p (g a) = true
    · simp [List.filter, h, ih]
    · have h' : p (g a) = false := by
        cases hc : p (g a)
        · rfl
        · exact absurd hc h
      simp [List.filter, h', ih]

/-- Claim C3: with `{greater: true}`, for every package name with at
least one filter-matching entry, the returned mapping contains exactly
one binding for that name, and the retained entry is a filter-matching
entry of that name whose version no other filter-matching entry of the
name strictly beats under the external comparator (hypotheses: the
comparator's strict order is transitive and irreflexive). -/
theorem claim_C3 (gt : String → String → Bool) (f : Attr → Option Pattern)
    (entries : List IndexEntry) (n : String)
    (htrans : ∀ a b c, gt a b = true → gt b c = true → gt a c = true)
    (hirr : ∀ a, gt a a = false)
    (hn : ∃ e ∈ entries, filterMatch f e = true ∧ e.name = n) :
    (listIndexGreater gt f entries).filter (fun p => p.1 == n)
        = [(n, (pickOf gt f entries n).2)]
    ∧ (pickOf gt f entries n).2 ∈ entries
    ∧ filterMatch f (pickOf gt f entries n).2 = true
    ∧ ((pickOf gt f entries n).2).name = n
    ∧ ∀ x ∈ entries, filterMatch f x = true → x.name = n →
        gt x.version ((pickOf gt f entries n).2).version = false := by
  obtain ⟨e, he, hfe, hne⟩ := hn
  have heM : e ∈ matchingOf f entries := List.mem_filter.2 ⟨he, hfe⟩
  have heG : e ∈ groupOf f entries n :=
    List.mem_filter.2 ⟨heM, by simp [hne]⟩
  have htransE : ∀ a b c, entBeats gt a b = true → entBeats gt b c = true →
      entBeats gt a c = true := fun a b c hab hbc => htrans _ _ _ hab hbc
  have hirrE : ∀ a, entBeats gt a a = false := fun a => hirr _
  cases hg : groupOf f entries n with
  | nil => rw [hg] at heG; exact absurd heG (List.not_mem_nil e)
  | cons d ds =>
    have hw : (pickOf gt f entries n).2 = scanMax (entBeats gt) d ds := by
      rw [pickOf, hg]
    have hwG : (pickOf gt f entries n).2 ∈ groupOf f entries n := by
      rw [hw, hg]
      exact scanMax_mem _ d ds
    have hwM : (pickOf gt f entries n).2 ∈ matchingOf f entries :=
      (List.mem_filter.1 hwG).1
    have hwn : ((pickOf gt f entries n).2).name = n := by
      have := (List.mem_filter.1 hwG).2
      simpa using this
    refine ⟨?_, (List.mem_filter.1 hwM).1, (List.mem_filter.1 hwM).2, hwn, ?_⟩
    · have hnames : n ∈ (matchingOf f entries).map (·.name) :=
        List.mem_map.2 ⟨e, heM, hne⟩
      have hdF : n ∈ dedupFirst ((matchingOf f entries).map (·.name)) :=
        (mem_dedupFirst _ _).2 hnames
      have hnodup := nodup_dedupFirst ((matchingOf f entries).map (·.name))
      rw [listIndexGreater, filter_of_map]
      have hpred : (fun m => ((pickOf gt f entries m).1 == n)) = (fun m => m == n) := by
        funext m
        rw [pickOf_fst]
      rw [hpred, filter_beq_of_nodup _ _ hnodup hdF]
      simp only [List.map_cons, List.map_nil]
      have : pickOf gt f entries n = (n, (pickOf gt f entries n).2) := by
        have h1 := pickOf_fst gt f entries n
        exact Prod.ext h1 rfl
      rw [← this]
    · intro x hx hfx hxn
      have hxG : x ∈ groupOf f entries n :=
        List.mem_filter.2 ⟨List.mem_filter.2 ⟨hx, hfx⟩, by simp [hxn]⟩
      rw [hg] at hxG
      have := scanMax_not_beaten (entBeats gt) htransE hirrE d ds x hxG
      rw [hw]
      exact this

/-- A comparator for the witness: version `a` beats version `b` when it
is longer (a strict order that is transitive and irreflexive). -/
def lenGt (a b : String) : Bool := decide (b.length < a.length)

theorem lenGt_trans : ∀ a b c, lenGt a b = true → lenGt b c = true → lenGt a c = true := by
  intro a b c hab hbc
  have h1 := of_decide_eq_true hab
  have h2 := of_decide_eq_true hbc
  exact decide_eq_true (Nat.lt_trans h2 h1)

theorem lenGt_irr : ∀ a, lenGt a a = false := by
  intro a
  exact decide_eq_false (Nat.lt_irrefl _)

/-- Witness entry: version `1`. -/
def c3e1 : IndexEntry := ⟨some "stable", "pkg", "1", some "amd64", "stable"⟩

/-- Witness entry: version `22`, which beats `1` under `lenGt`. -/
def c3e2 : IndexEntry := ⟨some "stable", "pkg", "22", some "amd64", "stable"⟩

/-- Claim C3, witness: the theorem applied to a concrete two-entry
index with no filters. -/
theorem claim_C3_witness :
    (listIndexGreater lenGt (fun _ => none) [c3e1, c3e2]).filter (fun p => p.1 == "pkg")
        = [("pkg", (pickOf lenGt (fun _ => none) [c3e1, c3e2] "pkg").2)]
    ∧ (pickOf lenGt (fun _ => none) [c3e1, c3e2] "pkg").2 ∈ [c3e1, c3e2]
    ∧ filterMatch (fun _ => none) (pickOf lenGt (fun _ => none) [c3e1, c3e2] "pkg").2 = true
    ∧ ((pickOf lenGt (fun _ => none) [c3e1, c3e2] "pkg").2).name = "pkg"
    ∧ ∀ x ∈ [c3e1, c3e2], filterMatch (fun _ => none) x = true → x.name = "pkg" →
        lenGt x.version ((pickOf lenGt (fun _ => none) [c3e1, c3e2] "pkg").2).version = false :=
  claim_C3 lenGt (fun _ => none) [c3e1, c3e2] "pkg" lenGt_trans lenGt_irr
    ⟨c3e1, by decide, by decide, rfl⟩

/-! ### Repository, archive and catalog state (claims C1, C2, C9, C10)

The distribution directory of a repository is a list of raw files
(artifact plus optional `.md5sum` sidecar content, sidecars modelled as
a field).  The archive of one package under one archive distribution —
the directory `wpkg@ver/<distribution>/<name>/` — holds version
subdirectories, archived files and the `index.json` catalog. -/

/-- A file of a distribution directory: file name, artifact bytes, and
the content of the `.md5sum` sidecar when that sidecar exists. -/
structure RawFile where
  fname : String
  bytes : String
  md5 : Option String
deriving Repr, DecidableEq

/-- A parsed `.deb` file name (the match of the archiver's regex on
`<name>_<version>[_<arch>].deb`). -/
structure Deb where
  name : String
  version : String
  arch : Option String
  file : String
deriving Repr, DecidableEq

/-- Embedding of the archiver's file-name parse (src/wpkg.js lines
330-339): the regex `([^ _]*)_([^ _]*)(?:_([^ _]*))?\.deb$` matched
against the file name.  Since every field excludes spaces and
underscores and the match is anchored at `.deb$`, the leftmost match
always consists of the last two or three underscore-separated fields of
the last space-separated segment.  A `.deb` name with no underscore has
no match (the JS code would throw on it), modelled as `none`. -/
def parseDeb (fname : String) : Option Deb :=
  if strEndsWith fname ".deb" then
    let stem := String.mk (fname.data.take (fname.data.length - 4))
    let seg := ((splitChar ' ' stem).getLast?).getD ""
    let fields := splitChar '_' seg
    match fields.reverse with
    | a :: v :: n :: _ => some ⟨n, v, some a, fname⟩
    | [v, n] => some ⟨n, v, none, fname⟩
    | _ => none
  else none

/-- A file inside a per-version archive directory
`wpkg@ver/<distribution>/<name>/<version>/`. -/
structure ArchFile where
  version : String
  fname : String
  bytes : String
  md5 : Option String
deriving Repr, DecidableEq

/-- One base-version record of the archive catalog:
`{latest: <full version>, versions: [<full version>, ...]}`. -/
structure BaseEntry where
  latest : String
  versions : List String
deriving Repr, DecidableEq

/-- The archive catalog `index.json`: base-version records (insertion
ordered, as JS object keys) plus the top-level `latest` base-version
key (`none` models an absent key, i.e. `undefined` dropped by
`JSON.stringify`). -/
structure Catalog where
  bases : List (String × BaseEntry)
  latest : Option String
deriving Repr, DecidableEq

/-- The archive state of one package under one archive distribution:
existing version subdirectories (in creation order), archived files,
and the catalog (`none` when `index.json` does not exist yet). -/
structure PkgArchive where
  dirs : List String
  files : List ArchFile
  catalog : Option Catalog
deriving Repr, DecidableEq

/-- The empty package archive (nothing archived yet). -/
def emptyArchive : PkgArchive := ⟨[], [], none⟩

/-- The state a repository synchronization acts on: the files of each
distribution directory, and the package archives keyed by (archive
distribution, package name). -/
structure RepoState where
  dists : List (String × List RawFile)
  archives : List ((String × String) × PkgArchive)
deriving Repr, DecidableEq

/-- One step of the catalog rebuild loop of `Wpkg._moveToArchiving`
(src/wpkg.js lines 293-304): insert the version under its base.  A base
missing from the map is created as `{latest: '', versions: []}` before
the push; a base already present has its `versions` array reset to `[]`
the first time the loop meets it (the `baseVersions` marker object),
then pushed into.  Note the create branch does *not* set the marker. -/
def catalogStep (st : List (String × BaseEntry) × List String) (v : String) :
    List (String × BaseEntry) × List String :=
  let b := baseVersion v
  match alGet? st.1 b with
  | none => (alSet st.1 b ⟨"", [v]⟩, st.2)
  | some e =>
    if b ∈ st.2 then (alSet st.1 b ⟨e.latest, e.versions ++ [v]⟩, st.2)
    else (alSet st.1 b ⟨e.latest, [v]⟩, b :: st.2)

/-- Embedding of the `index.json` update of `Wpkg._moveToArchiving`
(src/wpkg.js lines 272-312): read the existing catalog (or start
empty), purge versions whose directories no longer exist, re-scan the
version directories rebuilding the base-version map, recompute the
`latest` of the archived version's base via `maxVersion`, and recompute
the top-level `latest` over all base keys.  Because `maxVersion` shifts
its argument in place, the recompute of the base's `latest` also drops
the first element of that base's `versions` array, and that truncated
array is what `writeJSONSync` persists.  The top-level call passes the
fresh array built by `Object.keys`, so its shift is invisible to the
stored catalog.  The lookup of the archived version's base always
succeeds because its directory is among `dirs` (JS would throw
otherwise). -/
def updateCatalog (gt : String → String → Bool) (cat0 : Option Catalog)
    (dirs : List String) (debVersion : String) : Catalog :=
  let purged : List (String × BaseEntry) :=
    match cat0 with
    | some c => c.bases.map (fun p => (p.1, ⟨p.2.latest, p.2.versions.filter (· ∈ dirs)⟩))
    | none => []
  let bases1 := (dirs.foldl catalogStep (purged, [])).1
  let b := baseVersion debVersion
  let bases2 :=
    match alGet? bases1 b with
    | some e => alSet bases1 b ⟨((jsMaxVersion gt e.versions).1).getD "", (jsMaxVersion gt e.versions).2⟩
    | none => bases1
  ⟨bases2, (jsMaxVersion gt (bases2.map (·.1))).1⟩

/-- Embedding of `Wpkg._moveToArchiving` (src/wpkg.js lines 229-313).
If the destination file already exists, the `.md5sum` sidecars of
source and destination are compared (both-absent compares equal): equal
sidecars skip the copy, additionally removing the source when not
back-linking; differing sidecars fall through to an overwrite.  The
move (`mv` for a superseded version, `cp` for the back-linked latest)
carries the sidecar with ENOENT tolerated — so an absent source sidecar
leaves any destination sidecar in place — creates the version directory
and rewrites `index.json`.  `none` models a thrown error (source file
missing). -/
def moveToArchiving (gt : String → String → Bool) (dist : List RawFile)
    (arch : PkgArchive) (deb : Deb) (backLink : Bool) :
    Option (List RawFile × PkgArchive) :=
  let dst? := arch.files.find? (fun fl => fl.version == deb.version && fl.fname == deb.file)
  let src? := dist.find? (fun fl => fl.fname == deb.file)
  let skipEq : Bool :=
    match dst? with
    | some dstf => (src?.bind (·.md5)) == dstf.md5
    | none => false
  if skipEq then
    if backLink then some (dist, arch)
    else
      match src? with
      | none => none
      | some _ => some (dist.filter (fun fl => fl.fname != deb.file), arch)
  else
    match src? with
    | none => none
    | some src =>
      let dist' := if backLink then dist else dist.filter (fun fl => fl.fname != deb.file)
      let newMd5 : Option String :=
        match src.md5 with
        | some m => some m
        | none => dst?.bind (·.md5)
      let newFile : ArchFile := ⟨deb.version, deb.file, src.bytes, newMd5⟩
      let files' := arch.files.filter
        (fun fl => !(fl.version == deb.version && fl.fname == deb.file)) ++ [newFile]
      let dirs' := if deb.version ∈ arch.dirs then arch.dirs else arch.dirs ++ [deb.version]
      some (dist', ⟨dirs', files', some (updateCatalog gt arch.catalog dirs' deb.version)⟩)

/-- Embedding of `getFinalArchivesPath` of `Wpkg._archiving` (src/wpkg.js
lines 353-365): when the repository index has an entry for (name,
version) whose control `Distribution` field contains a
space-separated token with a `+`, the artifact is archived under that
specialized distribution instead of the swept one.  `ctrlDist` is the
index lookup (an external input: the repository index parsed before the
sweep). -/
def finalArchKey (ctrlDist : String → String → Option String) (distribution : String)
    (deb : Deb) : String :=
  match (ctrlDist deb.name deb.version).bind
      (fun s => (splitChar ' ' s).find? (fun d => strContainsChar '+' d)) with
  | some sp => sp
  | none => distribution

/-- Archives keyed by (archive distribution, package name). -/
abbrev Archives := List ((String × String) × PkgArchive)

/-- Version comparison lifted to parsed debs. -/
def debBeats (gt : String → String → Bool) (x y : Deb) : Bool := gt x.version y.version

/-- The name group of the archiver (`list[pkg.name]`). -/
def groupDebs (debs : List Deb) (m : String) : List Deb :=
  debs.filter (fun d => d.name == m)

/-- The entry surviving a group's scan (the unique entry never marked
`previous`), `none` for an empty group. -/
def winnerOf (gt : String → String → Bool) : List Deb → Option Deb
  | [] => none
  | d :: ds => some (scanMax (debBeats gt) d ds)

/-- The archive key an artifact is archived under. -/
def keyOf (ctrlDist : String → String → Option String) (distribution : String)
    (deb : Deb) : String × String :=
  (finalArchKey ctrlDist distribution deb, deb.name)

/-- An archived copy keyed by (version directory, file name) exists
among the files of a package archive. -/
def pairPresent (files : List ArchFile) (v fn : String) : Prop :=
  ∃ af ∈ files, af.version = v ∧ af.fname = fn

/-- One archival move inside the sweep: locate the target package
archive by its computed key, run `_moveToArchiving`, store the updated
archive back. -/
def doMove (gt : String → String → Bool) (ctrlDist : String → String → Option String)
    (distribution : String) (s : List RawFile × Archives) (deb : Deb)
    (backLink : Bool) : Option (List RawFile × Archives) :=
  match moveToArchiving gt s.1 (alGetD s.2 (keyOf ctrlDist distribution deb) emptyArchive)
      deb backLink with
  | none => none
  | some (d', pa') => some (d', alSet s.2 (keyOf ctrlDist distribution deb) pa')

/-- The `toCheck` loop of `Wpkg._archiving` (src/wpkg.js lines 369-391)
on one name group: compare each further entry with the current
candidate; the loser is archived immediately (no back-link), the winner
becomes the new candidate; return the surviving candidate (the unique
entry never marked `previous`). -/
def archiveScan (gt : String → String → Bool) (ctrlDist : String → String → Option String)
    (distribution : String) (s : List RawFile × Archives) (toCheck : Deb) :
    List Deb → Option ((List RawFile × Archives) × Deb)
  | [] => some (s, toCheck)
  | d :: ds =>
    let w := if gt d.version toCheck.version then d else toCheck
    let l := if gt d.version toCheck.version then toCheck else d
    match doMove gt ctrlDist distribution s l false with
    | none => none
    | some s' => archiveScan gt ctrlDist distribution s' w ds

/-- Archival of one name group (src/wpkg.js lines 367-407): scan the
group archiving every superseded version, then archive the surviving
latest with a back-link (a copy, keeping the live artifact). -/
def archiveName (gt : String → String → Bool) (ctrlDist : String → String → Option String)
    (distribution : String) (s : List RawFile × Archives) :
    List Deb → Option (List RawFile × Archives)
  | [] => some s
  | d :: ds =>
    match archiveScan gt ctrlDist distribution s d ds with
    | none => none
    | some (s', w) => doMove gt ctrlDist distribution s' w true

/-- Embedding of one distribution sweep of `Wpkg._archiving`
(src/wpkg.js lines 325-408): list the `.deb` files of the distribution
directory, parse each file name (a parse failure is a thrown error,
modelled `none`), drop `-stub` packages, group by name in
first-occurrence order, and archive every group. -/
def archiveDistribution (gt : String → String → Bool)
    (ctrlDist : String → String → Option String) (distribution : String)
    (st : RepoState) : Option RepoState :=
  let files := alGetD st.dists distribution []
  let raw := files.filter (fun fl => strEndsWith fl.fname ".deb")
  match raw.mapM (fun fl => parseDeb fl.fname) with
  | none => none
  | some debs0 =>
    let debs := debs0.filter (fun d => !(strEndsWith d.name "-stub"))
    let names := dedupFirst (debs.map (·.name))
    let res := names.foldl
      (fun s? m => s?.bind (fun s =>
        archiveName gt ctrlDist distribution s (groupDebs debs m)))
      (some (files, st.archives))
    res.map (fun p => ⟨alSet st.dists distribution p.1, p.2⟩)

/-- Embedding of `Wpkg._syncRepository` (src/wpkg.js lines 503-517):
create the repository index (an external-tool effect on the index file,
not on the modelled state), sweep every distribution subdirectory
through the archiver, and re-create the index.  A thrown error aborts
the chain (`none`); the surrounding ENOENT swallow returns the state as
it was at the throw, so claims about a *successful* synchronization are
conditioned on a `some` result. -/
def syncRepository (gt : String → String → Bool)
    (ctrlDist : String → String → Option String) (distributions : List String)
    (st : RepoState) : Option RepoState :=
  distributions.foldl (fun s? d => s?.bind (archiveDistribution gt ctrlDist d)) (some st)

/-- Whether a raw file is a `.deb` artifact of the given package name. -/
def debOfName (n : String) (fl : RawFile) : Bool :=
  match parseDeb fl.fname with
  | some dd => dd.name == n
  | none => false

/-! ### The external Debian version comparator, modelled from the spec

The spec declares the version comparator an external collaborator ("a
Debian version-comparator (strict greater-than between two version
strings)", the `wpkg-debversion` dependency).  Claims whose statement
is universal take the comparator as an abstract parameter; the one
end-to-end claim (C2) needs its concrete standard behaviour, modelled
here as the Debian policy ordering. -/

/-- Modelled from the spec: rank of a character in Debian version
comparison — `~` sorts before everything (rank 0), end-of-string is
rank 1 (handled in `debCmpChunk`), letters before all other
characters. -/
def debCharKey (c : Char) : Nat :=
  if c = '~' then 0 else if c.isAlpha then 2 + c.toNat else 1024 + c.toNat

/-- Modelled from the spec: comparison of two non-digit chunks under
the Debian character ranking, an exhausted side ranking between `~` and
everything else. -/
def debCmpChunk : List Char → List Char → Ordering
  | [], [] => .eq
  | [], c :: _ => if c = '~' then .gt else .lt
  | c :: _, [] => if c = '~' then .lt else .gt
  | c :: cs, d :: ds =>
    if debCharKey c < debCharKey d then .lt
    else if debCharKey d < debCharKey c then .gt
    else debCmpChunk cs ds

/-- Lexicographic comparison of equal-length digit runs. -/
def lexDigits : List Char → List Char → Ordering
  | [], [] => .eq
  | [], _ :: _ => .lt
  | _ :: _, [] => .gt
  | c :: cs, d :: ds =>
    if c.toNat < d.toNat then .lt
    else if d.toNat < c.toNat then .gt
    else lexDigits cs ds

/-- Modelled from the spec: numeric comparison of two digit runs (an
absent run counts as zero): strip leading zeros, compare lengths, then
compare lexicographically. -/
def debCmpNum (a b : List Char) : Ordering :=
  let a' := a.dropWhile (· == '0')
  let b' := b.dropWhile (· == '0')
  if a'.length < b'.length then .lt
  else if b'.length < a'.length then .gt
  else lexDigits a' b'

/-- Modelled from the spec: the alternating non-digit/digit comparison
loop of Debian version ordering.  The fuel argument (total remaining
length + 1 at the top call) makes the recursion structural; each
recursive step consumes at least one character of either side, so the
fuel never runs out on the top-level call. -/
def debVerCmp : Nat → List Char → List Char → Ordering
  | 0, _, _ => .eq
  | fuel + 1, a, b =>
    if a.isEmpty && b.isEmpty then .eq
    else
      let na := a.takeWhile (fun c => !c.isDigit)
      let ra := a.dropWhile (fun c => !c.isDigit)
      let nb := b.takeWhile (fun c => !c.isDigit)
      let rb := b.dropWhile (fun c => !c.isDigit)
      match debCmpChunk na nb with
      | .lt => .lt
      | .gt => .gt
      | .eq =>
        let da := ra.takeWhile Char.isDigit
        let ra' := ra.dropWhile Char.isDigit
        let db := rb.takeWhile Char.isDigit
        let rb' := rb.dropWhile Char.isDigit
        match debCmpNum da db with
        | .lt => .lt
        | .gt => .gt
        | .eq => debVerCmp fuel ra' rb'

/-- Split a version into (upstream part, revision after the last `-`);
a version with no `-` has an empty revision. -/
def debRevSplit (v : String) : List Char × List Char :=
  match v.data.reverse.dropWhile (· != '-') with
  | [] => (v.data, [])
  | _ :: rest => (rest.reverse, (v.data.reverse.takeWhile (· != '-')).reverse)

/-- Modelled from the spec: full Debian version comparison — upstream
part first, then the revision.  (Epochs do not occur in the modelled
repositories and are compared as ordinary text.) -/
def debCmp (v1 v2 : String) : Ordering :=
  let p1 := debRevSplit v1
  let p2 := debRevSplit v2
  match debVerCmp (p1.1.length + p2.1.length + 1) p1.1 p2.1 with
  | .lt => .lt
  | .gt => .gt
  | .eq => debVerCmp (p1.2.length + p2.2.length + 1) p1.2 p2.2

/-- Modelled from the spec: the strict greater-than of the external
`wpkg-debversion` comparator (`debversion(a, b) > 0`). -/
def debGt (v1 v2 : String) : Bool := debCmp v1 v2 == Ordering.gt

/-! ### Claim C2: the end-to-end archival scenario -/

/-- Scenario file `pkg_0.9_amd64.deb` (no md5 sidecar). -/
def c2f1 : RawFile := ⟨"pkg_0.9_amd64.deb", "bytes09", none⟩

/-- Scenario file `pkg_1.0-1_amd64.deb`. -/
def c2f2 : RawFile := ⟨"pkg_1.0-1_amd64.deb", "bytes101", none⟩

/-- Scenario file `pkg_1.0-2_amd64.deb`. -/
def c2f3 : RawFile := ⟨"pkg_1.0-2_amd64.deb", "bytes102", none⟩

/-- The scenario repository: distribution `foo` with the three
artifacts, empty archive. -/
def c2State : RepoState := ⟨[("foo", [c2f1, c2f2, c2f3])], []⟩

/-- Claim C2 (refuted — evaluation of the embedded sweep at the
claim's own scenario): starting from distribution `foo` containing
exactly `pkg_1.0-1_amd64.deb`, `pkg_1.0-2_amd64.deb` and
`pkg_0.9_amd64.deb`, a successful `syncRepository` leaves
`archive/foo/pkg/index.json` with base `1.0` carrying latest `1.0-2`
but versions `[1.0-2]` only — NOT the claimed `[1.0-1, 1.0-2]` — while
the archived version directories are `0.9`, `1.0-1`, `1.0-2`.  The
directory `1.0-1` exists in the archive yet is missing from its base's
versions array, refuting both the claimed mapping and the claim's
every-directory-listed property.  The loss comes from `maxVersion`'s
in-place `versions.shift()` (src/wpkg.js line 23, called at line 302):
recomputing base `1.0`'s latest after archiving `1.0-2` drops the first
element `1.0-1` from the base's versions array before `writeJSONSync`
persists it.  The external comparator is the spec-modelled `debGt`. -/
theorem claim_C2 :
    (syncRepository debGt (fun _ _ => none) ["foo"] c2State).map
        (fun st' => ((alGetD st'.archives ("foo", "pkg") emptyArchive).catalog,
                     (alGetD st'.archives ("foo", "pkg") emptyArchive).dirs))
      = some (some ⟨[("0.9", ⟨"0.9", ["0.9"]⟩), ("1.0", ⟨"1.0-2", ["1.0-2"]⟩)],
                    some "1.0"⟩,
              ["0.9", "1.0-1", "1.0-2"]) := by
  decide

/-! ### moveArchive (claim C9) -/

/-- The result of `Wpkg.moveArchive`: the catalog content of
`index.json` after the call, the version directories remaining in the
package archive, whether the version directory was moved to the
destination, and whether `index.json` was rewritten. -/
structure MoveArchiveResult where
  catalog : Catalog
  pkgDirs : List String
  moved : Bool
  wrote : Bool
deriving Repr, DecidableEq

/-- Embedding of `Wpkg.moveArchive` (src/wpkg.js lines 450-501): read
the catalog, look up the base of the requested version; a missing base
or a version not in its versions array returns untouched.  Otherwise
the version is spliced out in memory; if it was both its base's latest
and the base is the top-level latest, only a warning is logged and the
function returns — the splice is discarded, nothing is moved and the
catalog file is not rewritten.  Otherwise the base entry is deleted
(last version) or its latest recomputed via `maxVersion` — whose
in-place shift (src/wpkg.js line 487 calling lines 22-37) also drops
the first element of the spliced versions array before it is written —
the version directory is moved (ENOENT tolerated) and the catalog
rewritten. -/
def moveArchive (gt : String → String → Bool) (cat : Catalog) (pkgDirs : List String)
    (version : String) : MoveArchiveResult :=
  let base := baseVersion version
  match alGet? cat.bases base with
  | none => ⟨cat, pkgDirs, false, false⟩
  | some e =>
    if version ∈ e.versions then
      let versions' := e.versions.erase version
      let isLatest := cat.latest == some base
      let isBaseLatest := version == e.latest
      if isBaseLatest && isLatest then ⟨cat, pkgDirs, false, false⟩
      else
        let bases' :=
          if isBaseLatest then
            if versions'.isEmpty then cat.bases.filter (fun p => p.1 != base)
            else alSet cat.bases base ⟨((jsMaxVersion gt versions').1).getD "", (jsMaxVersion gt versions').2⟩
          else alSet cat.bases base ⟨e.latest, versions'⟩
        ⟨⟨bases', cat.latest⟩, pkgDirs.erase version, decide (version ∈ pkgDirs), true⟩
    else ⟨cat, pkgDirs, false, false⟩

/-- Claim C9: `moveArchive` never removes the globally-latest version.
If the requested version is the latest of its base and that base is the
catalog's top-level latest, the call returns with the catalog content,
the archive directories, the moved flag and the rewrite flag all
untouched; likewise when the version's base is absent from the catalog
or the version is absent from its base's versions array. -/
theorem claim_C9 (gt : String → String → Bool) (cat : Catalog) (pkgDirs : List String)
    (version : String)
    (h : alGet? cat.bases (baseVersion version) = none
       ∨ (∃ e, alGet? cat.bases (baseVersion version) = some e ∧ version ∉ e.versions)
       ∨ (∃ e, alGet? cat.bases (baseVersion version) = some e ∧ version ∈ e.versions
            ∧ version = e.latest ∧ cat.latest = some (baseVersion version))) :
    moveArchive gt cat pkgDirs version = ⟨cat, pkgDirs, false, false⟩ := by
  rcases h with h | ⟨e, he, hv⟩ | ⟨e, he, hv, hlat, htop⟩
  · simp [moveArchive, h]
  · simp [moveArchive, he, hv]
  · have h1 : (version == e.latest) = true := beq_iff_eq.2 hlat
    have h2 : (cat.latest == some (baseVersion version)) = true := beq_iff_eq.2 htop
    simp [moveArchive, he, hv, h1, h2]

/-- A concrete catalog for the C9 witness: one base `1.0`, latest
`1.0-2`, which is also the top-level latest. -/
def c9Catalog : Catalog := ⟨[("1.0", ⟨"1.0-2", ["1.0-1", "1.0-2"]⟩)], some "1.0"⟩

/-- Claim C9, witness: requesting the globally-latest version `1.0-2`
leaves catalog and directories untouched. -/
theorem claim_C9_witness :
    moveArchive lenGt c9Catalog ["1.0-1", "1.0-2"] "1.0-2"
      = ⟨c9Catalog, ["1.0-1", "1.0-2"], false, false⟩ :=
  claim_C9 lenGt c9Catalog ["1.0-1", "1.0-2"] "1.0-2"
    (Or.inr (Or.inr ⟨⟨"1.0-2", ["1.0-1", "1.0-2"]⟩, by decide, by decide, by decide, by decide⟩))

/-- Claim C10: the skip-or-overwrite decision of `_moveToArchiving`
reads only the `.md5sum` sidecars.  If the destination artifact already
exists and *neither* side has a sidecar, the two compare equal
regardless of the artifact bytes: with `backLink = false` the source is
deleted without any copy, with `backLink = true` nothing at all
happens; in both cases the package archive (bytes included) is
unchanged. -/
theorem claim_C10 (gt : String → String → Bool) (dist : List RawFile)
    (arch : PkgArchive) (deb : Deb) (backLink : Bool) (dstf : ArchFile)
    (hdst : arch.files.find? (fun fl => fl.version == deb.version && fl.fname == deb.file)
        = some dstf)
    (hdstmd5 : dstf.md5 = none)
    (hsrcmd5 : (dist.find? (fun fl => fl.fname == deb.file)).bind (·.md5) = none)
    (hsrc : (dist.find? (fun fl => fl.fname == deb.file)).isSome = true) :
    moveToArchiving gt dist arch deb backLink
      = some ((if backLink then dist else dist.filter (fun fl => fl.fname != deb.file)),
              arch) := by
  rw [moveToArchiving]
  rw [hdst]
  cases hfind : dist.find? (fun fl => fl.fname == deb.file) with
  | none => rw [hfind] at hsrc; simp at hsrc
  | some src =>
    rw [hfind] at hsrcmd5
    simp only [Option.some_bind] at hsrcmd5
    simp [hfind, hsrcmd5, hdstmd5]
    cases backLink <;> simp

/-- A concrete source artifact for the C10 witness. -/
def c10Src : RawFile := ⟨"pkg_1.0_amd64.deb", "newbytes", none⟩

/-- A concrete destination archive for the C10 witness: the same
artifact name already archived with *different* bytes and no sidecar. -/
def c10Arch : PkgArchive :=
  ⟨["1.0"], [⟨"1.0", "pkg_1.0_amd64.deb", "oldbytes", none⟩], none⟩

/-- The parsed deb of the C10 witness. -/
def c10Deb : Deb := ⟨"pkg", "1.0", some "amd64", "pkg_1.0_amd64.deb"⟩

/-- Claim C10, witness: with no sidecars on either side and differing
bytes, archiving without back-link deletes the source and leaves the
archive bytes untouched. -/
theorem claim_C10_witness :
    moveToArchiving lenGt [c10Src] c10Arch c10Deb false
      = some ((if false then [c10Src]
               else [c10Src].filter (fun fl => fl.fname != c10Deb.file)), c10Arch) :=
  claim_C10 lenGt [c10Src] c10Arch c10Deb false ⟨"1.0", "pkg_1.0_amd64.deb", "oldbytes", none⟩
    (by decide) rfl (by decide) (by decide)

/-! ### Effect lemmas for the archival sweep (claim C1)

What each move does to the distribution directory and to the archives:
a non-back-link move removes exactly the moved file name from the
distribution; every move establishes the archived copy of its artifact
and never removes an archived (version, file name) pair. -/

theorem moveToArchiving_spec (gt : String → String → Bool) (dist : List RawFile)
    (arch : PkgArchive) (deb : Deb) (bl : Bool) (out : List RawFile × PkgArchive)
    (h : moveToArchiving gt dist arch deb bl = some out) :
    out.1 = (if bl then dist else dist.filter (fun fl => fl.fname != deb.file))
    ∧ pairPresent out.2.files deb.version deb.file
    ∧ ∀ v fn, pairPresent arch.files v fn → pairPresent out.2.files v fn := by
  rw [moveToArchiving] at h
  cases hdst : arch.files.find? (fun fl => fl.version == deb.version && fl.fname == deb.file) with
  | some dstf =>
    have hdmem : dstf ∈ arch.files := List.mem_of_find?_eq_some hdst
    have hdpred := List.find?_some hdst
    rw [Bool.and_eq_true, beq_iff_eq, beq_iff_eq] at hdpred
    rw [hdst] at h
    cases hsrc : dist.find? (fun fl => fl.fname == deb.file) with
    | some src =>
      rw [hsrc] at h
      simp only [Option.some_bind] at h
      by_cases hmd : (src.md5 == dstf.md5) = true
      · rw [if_pos hmd] at h
        cases hbl : bl with
        | true =>
          rw [hbl] at h
          simp only [if_true] at h
          cases h
          exact ⟨rfl, ⟨dstf, hdmem, hdpred.1, hdpred.2⟩, fun v fn hp => hp⟩
        | false =>
          rw [hbl] at h
          simp only [Bool.false_eq_true, if_false] at h
          cases h
          exact ⟨rfl, ⟨dstf, hdmem, hdpred.1, hdpred.2⟩, fun v fn hp => hp⟩
      · rw [if_neg hmd] at h
        cases h
        refine ⟨rfl, ?_, ?_⟩
        · exact ⟨⟨deb.version, deb.file, src.bytes,
            match src.md5 with | some m => some m | none => dstf.md5⟩, by simp, rfl, rfl⟩
        · intro v fn hp
          obtain ⟨af, hmem, hv, hfn⟩ := hp
          by_cases hpred : (af.version == deb.version && af.fname == deb.file) = true
          · rw [Bool.and_eq_true, beq_iff_eq, beq_iff_eq] at hpred
            refine ⟨⟨deb.version, deb.file, src.bytes,
              match src.md5 with | some m => some m | none => dstf.md5⟩, by simp, ?_, ?_⟩
            · rw [← hpred.1, hv]
            · rw [← hpred.2, hfn]
          · refine ⟨af, ?_, hv, hfn⟩
            simp only [List.mem_append]
            left
            rw [List.mem_filter]
            exact ⟨hmem, by simp [hpred]⟩
    | none =>
      rw [hsrc] at h
      simp only [Option.none_bind] at h
      by_cases hmd : ((none : Option String) == dstf.md5) = true
      · rw [if_pos hmd] at h
        cases hbl : bl with
        | true =>
          rw [hbl] at h
          simp only [if_true] at h
          cases h
          exact ⟨rfl, ⟨dstf, hdmem, hdpred.1, hdpred.2⟩, fun v fn hp => hp⟩
        | false =>
          rw [hbl] at h
          simp only [Bool.false_eq_true, if_false] at h
          exact absurd h (by simp)
      · rw [if_neg hmd] at h
        exact absurd h (by simp)
  | none =>
    rw [hdst] at h
    cases hsrc : dist.find? (fun fl => fl.fname == deb.file) with
    | some src =>
      rw [hsrc] at h
      simp only [Bool.false_eq_true, if_false] at h
      cases h
      refine ⟨rfl, ?_, ?_⟩
      · exact ⟨⟨deb.version, deb.file, src.bytes,
          match src.md5 with | some m => some m | none => none⟩, by simp, rfl, rfl⟩
      · intro v fn hp
        obtain ⟨af, hmem, hv, hfn⟩ := hp
        by_cases hpred : (af.version == deb.version && af.fname == deb.file) = true
        · rw [Bool.and_eq_true, beq_iff_eq, beq_iff_eq] at hpred
          refine ⟨⟨deb.version, deb.file, src.bytes,
            match src.md5 with | some m => some m | none => none⟩, by simp, ?_, ?_⟩
          · rw [← hpred.1, hv]
          · rw [← hpred.2, hfn]
        · refine ⟨af, ?_, hv, hfn⟩
          simp only [List.mem_append]
          left
          rw [List.mem_filter]
          exact ⟨hmem, by simp [hpred]⟩
    | none =>
      rw [hsrc] at h
      simp only [Bool.false_eq_true, if_false] at h
      exact absurd h (by simp)

theorem doMove_spec (gt : String → String → Bool)
    (ctrl : String → String → Option String) (distribution : String)
    (s : List RawFile × Archives) (deb : Deb) (bl : Bool)
    (out : List RawFile × Archives)
    (h : doMove gt ctrl distribution s deb bl = some out) :
    out.1 = (if bl then s.1 else s.1.filter (fun fl => fl.fname != deb.file))
    ∧ pairPresent (alGetD out.2 (keyOf ctrl distribution deb) emptyArchive).files
        deb.version deb.file
    ∧ ∀ k v fn, pairPresent (alGetD s.2 k emptyArchive).files v fn →
        pairPresent (alGetD out.2 k emptyArchive).files v fn := by
  rw [doMove] at h
  cases hm : moveToArchiving gt s.1
      (alGetD s.2 (keyOf ctrl distribution deb) emptyArchive) deb bl with
  | none => rw [hm] at h; simp at h
  | some pr =>
    obtain ⟨d', pa'⟩ := pr
    rw [hm] at h
    simp only [Option.some.injEq] at h
    obtain ⟨hd, hp, hmono⟩ := moveToArchiving_spec _ _ _ _ _ _ hm
    subst h
    refine ⟨hd, ?_, ?_⟩
    · show pairPresent (alGetD (alSet s.2 (keyOf ctrl distribution deb) pa') 
        (keyOf ctrl distribution deb) emptyArchive).files deb.version deb.file
      rw [alGetD_alSet_self]
      exact hp
    · intro k v fn hpk
      show pairPresent (alGetD (alSet s.2 (keyOf ctrl distribution deb) pa') k
        emptyArchive).files v fn
      by_cases hk : k = keyOf ctrl distribution deb
      · subst hk
        rw [alGetD_alSet_self]
        exact hmono v fn hpk
      · rw [alGetD_alSet_ne _ _ _ _ _ hk]
        exact hpk

theorem archiveScan_spec (gt : String → String → Bool)
    (ctrl : String → String → Option String) (distribution : String)
    (ds : List Deb) :
    ∀ (c : Deb) (s out : List RawFile × Archives) (w : Deb),
      archiveScan gt ctrl distribution s c ds = some (out, w) →
      ((c :: ds).map (·.file)).Nodup →
      (w = scanMax (debBeats gt) c ds
       ∧ out.1.Sublist s.1
       ∧ (∀ fl, fl ∈ out.1 ↔
            fl ∈ s.1 ∧ (fl.fname = w.file ∨ fl.fname ∉ (c :: ds).map (·.file)))
       ∧ (∀ k v fn, pairPresent (alGetD s.2 k emptyArchive).files v fn →
            pairPresent (alGetD out.2 k emptyArchive).files v fn)
       ∧ (∀ x ∈ c :: ds, x ≠ w →
            pairPresent (alGetD out.2 (keyOf ctrl distribution x) emptyArchive).files
              x.version x.file)) := by
  induction ds with
  | nil =>
    intro c s out w h hnd
    rw [archiveScan] at h
    simp only [Option.some.injEq, Prod.mk.injEq] at h
    obtain ⟨h5, h6⟩ := h
    subst h5
    subst h6
    refine ⟨rfl, List.Sublist.refl _, ?_, fun k v fn hp => hp, ?_⟩
    · intro fl
      constructor
      · intro hin
        refine ⟨hin, ?_⟩
        by_cases hf : fl.fname = c.file
        · exact Or.inl hf
        · refine Or.inr ?_
          intro hc
          rcases List.mem_map.1 hc with ⟨x, hx, hxf⟩
          rcases List.mem_cons.1 hx with rfl | hx'
          · exact hf hxf.symm
          · exact absurd hx' (List.not_mem_nil x)
      · exact fun hp => hp.1
    · intro x hx hxw
      rcases List.mem_cons.1 hx with rfl | hx'
      · exact absurd rfl hxw
      · exact absurd hx' (List.not_mem_nil x)
  | cons d ds ih =>
    intro c s out w h hnd
    have hndm : ((c :: d :: ds).map (·.file)).Nodup := hnd
    rw [List.map_cons, List.nodup_cons] at hndm
    obtain ⟨h1, h2⟩ := hndm
    have h1' : c.file ≠ d.file ∧ c.file ∉ ds.map (·.file) := by
      rw [List.map_cons, List.mem_cons, not_or] at h1
      exact h1
    have h2' : d.file ∉ ds.map (·.file) ∧ (ds.map (·.file)).Nodup := by
      rw [List.map_cons, List.nodup_cons] at h2
      exact h2
    have h3 : d.file ∉ (c :: ds).map (·.file) := by
      rw [List.map_cons, List.mem_cons, not_or]
      exact ⟨fun hc => h1'.1 hc.symm, h2'.1⟩
    have h4 : ((c :: ds).map (·.file)).Nodup := by
      rw [List.map_cons, List.nodup_cons]
      exact ⟨h1'.2, h2'.2⟩
    rw [archiveScan] at h
    by_cases hgt : gt d.version c.version = true
    · rw [if_pos hgt, if_pos hgt] at h
      cases hdm : doMove gt ctrl distribution s c false with
      | none => rw [hdm] at h; simp at h
      | some s1 =>
        rw [hdm] at h
        obtain ⟨hw, hsub, hmem, hmono, hpres⟩ := ih d s1 out w h h2
        obtain ⟨hd1, hp1, hmono1⟩ := doMove_spec _ _ _ _ _ _ _ hdm
        simp only [Bool.false_eq_true, if_false] at hd1
        have hwfile : w.file ∈ (d :: ds).map (·.file) := by
          have hmem' := scanMax_mem (debBeats gt) d ds
          rw [← hw] at hmem'
          exact List.mem_map.2 ⟨w, hmem', rfl⟩
        have hwne : w.file ≠ c.file := by
          intro hc
          rw [List.map_cons] at h1
          exact h1 (hc ▸ hwfile)
        refine ⟨?_, ?_, ?_, ?_, ?_⟩
        · rw [scanMax]
          have hif : (if debBeats gt d c then d else c) = d := by
            simp [debBeats, hgt]
          rw [hif]
          exact hw
        · have hsub1 : s1.1.Sublist s.1 := by
            rw [hd1]
            exact List.filter_sublist _
          exact hsub.trans hsub1
        · intro fl
          rw [hmem fl, hd1, List.mem_filter, bne_iff_ne]
          simp only [List.map_cons, List.mem_cons, not_or]
          constructor
          · rintro ⟨⟨hin, hne⟩, hc | hc⟩
            · exact ⟨hin, Or.inl hc⟩
            · exact ⟨hin, Or.inr ⟨hne, hc.1, hc.2⟩⟩
          · rintro ⟨hin, hc | hc⟩
            · refine ⟨⟨hin, ?_⟩, Or.inl hc⟩
              rw [hc]
              exact hwne
            · exact ⟨⟨hin, hc.1⟩, Or.inr ⟨hc.2.1, hc.2.2⟩⟩
        · intro k v fn hp
          exact hmono k v fn (hmono1 k v fn hp)
        · intro x hx hxw
          rcases List.mem_cons.1 hx with rfl | hx'
          · exact hmono _ _ _ hp1
          · exact hpres x hx' hxw
    · rw [if_neg hgt, if_neg hgt] at h
      cases hdm : doMove gt ctrl distribution s d false with
      | none => rw [hdm] at h; simp at h
      | some s1 =>
        rw [hdm] at h
        obtain ⟨hw, hsub, hmem, hmono, hpres⟩ := ih c s1 out w h h4
        obtain ⟨hd1, hp1, hmono1⟩ := doMove_spec _ _ _ _ _ _ _ hdm
        simp only [Bool.false_eq_true, if_false] at hd1
        have hwfile : w.file ∈ (c :: ds).map (·.file) := by
          have hmem' := scanMax_mem (debBeats gt) c ds
          rw [← hw] at hmem'
          exact List.mem_map.2 ⟨w, hmem', rfl⟩
        have hwne : w.file ≠ d.file := by
          intro hc
          exact h3 (hc ▸ hwfile)
        refine ⟨?_, ?_, ?_, ?_, ?_⟩
        · rw [scanMax]
          have hif : (if debBeats gt d c then d else c) = c := by
            simp [debBeats, hgt]
          rw [hif]
          exact hw
        · have hsub1 : s1.1.Sublist s.1 := by
            rw [hd1]
            exact List.filter_sublist _
          exact hsub.trans hsub1
        · intro fl
          rw [hmem fl, hd1, List.mem_filter, bne_iff_ne]
          simp only [List.map_cons, List.mem_cons, not_or]
          constructor
          · rintro ⟨⟨hin, hne⟩, hc | hc⟩
            · exact ⟨hin, Or.inl hc⟩
            · exact ⟨hin, Or.inr ⟨hc.1, hne, hc.2⟩⟩
          · rintro ⟨hin, hc | hc⟩
            · refine ⟨⟨hin, ?_⟩, Or.inl hc⟩
              rw [hc]
              exact hwne
            · exact ⟨⟨hin, hc.2.1⟩, Or.inr ⟨hc.1, hc.2.2⟩⟩
        · intro k v fn hp
          exact hmono k v fn (hmono1 k v fn hp)
        · intro x hx hxw
          rcases List.mem_cons.1 hx with rfl | hx'
          · exact hpres x (List.mem_cons_self _ _) hxw
          · rcases List.mem_cons.1 hx' with rfl | hx''
            · exact hmono _ _ _ hp1
            · exact hpres x (List.mem_cons_of_mem _ hx'') hxw

theorem archiveName_spec (gt : String → String → Bool)
    (ctrl : String → String → Option String) (distribution : String)
    (g : List Deb) (s out : List RawFile × Archives)
    (h : archiveName gt ctrl distribution s g = some out)
    (hnd : (g.map (·.file)).Nodup) :
    out.1.Sublist s.1
    ∧ (∀ fl, fl ∈ out.1 ↔ fl ∈ s.1 ∧
        (fl.fname ∉ g.map (·.file) ∨ (winnerOf gt g).map (·.file) = some fl.fname))
    ∧ (∀ k v fn, pairPresent (alGetD s.2 k emptyArchive).files v fn →
        pairPresent (alGetD out.2 k emptyArchive).files v fn)
    ∧ (∀ x ∈ g, pairPresent (alGetD out.2 (keyOf ctrl distribution x) emptyArchive).files
        x.version x.file) := by
  cases g with
  | nil =>
    rw [archiveName] at h
    simp only [Option.some.injEq] at h
    subst h
    refine ⟨List.Sublist.refl _, ?_, fun k v fn hp => hp, ?_⟩
    · intro fl
      constructor
      · intro hin
        refine ⟨hin, Or.inl ?_⟩
        intro hc
        rw [List.map_nil] at hc
        exact absurd hc (List.not_mem_nil _)
      · exact fun hp => hp.1
    · intro x hx
      exact absurd hx (List.not_mem_nil x)
  | cons d ds =>
    rw [archiveName] at h
    cases hscan : archiveScan gt ctrl distribution s d ds with
    | none => rw [hscan] at h; simp at h
    | some pr =>
      obtain ⟨s', w⟩ := pr
      rw [hscan] at h
      obtain ⟨hw, hsub, hmemS, hmonoS, hpresS⟩ :=
        archiveScan_spec gt ctrl distribution ds d s s' w hscan hnd
      obtain ⟨hd2, hp2, hmono2⟩ := doMove_spec _ _ _ _ _ _ _ h
      rw [if_pos rfl] at hd2
      have hwin : winnerOf gt (d :: ds) = some w := by
        rw [winnerOf, hw]
      refine ⟨?_, ?_, ?_, ?_⟩
      · rw [hd2]
        exact hsub
      · intro fl
        have : fl ∈ out.1 ↔ fl ∈ s'.1 := by rw [hd2]
        rw [this, hmemS fl, hwin]
        simp only [Option.map_some', Option.some.injEq]
        constructor
        · rintro ⟨hin, hc | hc⟩
          · exact ⟨hin, Or.inr hc.symm⟩
          · exact ⟨hin, Or.inl hc⟩
        · rintro ⟨hin, hc | hc⟩
          · exact ⟨hin, Or.inr hc⟩
          · exact ⟨hin, Or.inl hc.symm⟩
      · intro k v fn hp
        exact hmono2 k v fn (hmonoS k v fn hp)
      · intro x hx
        by_cases hxw : x = w
        · subst hxw
          exact hp2
        · exact hmono2 _ _ _ (hpresS x hx hxw)

theorem foldlBind_none {α : Type} (g : String → α → Option α) (l : List String) :
    l.foldl (fun s? m => s?.bind (g m)) none = none := by
  induction l with
  | nil => rfl
  | cons m t ih => simpa [List.foldl_cons] using ih

theorem foldlBind_cons {α : Type} (g : String → α → Option α) (m : String)
    (l : List String) (s out : α)
    (h : (m :: l).foldl (fun s? m => s?.bind (g m)) (some s) = some out) :
    ∃ s1, g m s = some s1 ∧ l.foldl (fun s? m => s?.bind (g m)) (some s1) = some out := by
  rw [List.foldl_cons] at h
  simp only [Option.some_bind] at h
  cases hg : g m s with
  | none =>
    rw [hg] at h
    rw [foldlBind_none] at h
    exact absurd h (by simp)
  | some s1 =>
    rw [hg] at h
    exact ⟨s1, rfl, h⟩

theorem archiveFold_spec (gt : String → String → Bool)
    (ctrl : String → String → Option String) (distribution : String)
    (debs : List Deb)
    (hnd : ∀ m, ((groupDebs debs m).map (·.file)).Nodup) :
    ∀ (names : List String) (s out : List RawFile × Archives),
    (names.foldl (fun s? m => s?.bind (fun s =>
        archiveName gt ctrl distribution s (groupDebs debs m))) (some s)) = some out →
    out.1.Sublist s.1
    ∧ (∀ fl, fl ∈ out.1 ↔ fl ∈ s.1 ∧ ∀ m ∈ names,
        (fl.fname ∉ (groupDebs debs m).map (·.file)
         ∨ (winnerOf gt (groupDebs debs m)).map (·.file) = some fl.fname))
    ∧ (∀ k v fn, pairPresent (alGetD s.2 k emptyArchive).files v fn →
        pairPresent (alGetD out.2 k emptyArchive).files v fn)
    ∧ (∀ m ∈ names, ∀ x ∈ groupDebs debs m,
        pairPresent (alGetD out.2 (keyOf ctrl distribution x) emptyArchive).files
          x.version x.file) := by
  intro names
  induction names with
  | nil =>
    intro s out h
    simp only [List.foldl_nil, Option.some.injEq] at h
    subst h
    refine ⟨List.Sublist.refl _, ?_, fun k v fn hp => hp, ?_⟩
    · intro fl
      constructor
      · intro hin
        exact ⟨hin, fun m hm => absurd hm (List.not_mem_nil m)⟩
      · exact fun hp => hp.1
    · intro m hm
      exact absurd hm (List.not_mem_nil m)
  | cons m names ih =>
    intro s out h
    obtain ⟨s1, hstep, hrest⟩ := foldlBind_cons _ _ _ _ _ h
    obtain ⟨subM, memM, monoM, presM⟩ :=
      archiveName_spec gt ctrl distribution (groupDebs debs m) s s1 hstep (hnd m)
    obtain ⟨subI, memI, monoI, presI⟩ := ih s1 out hrest
    refine ⟨subI.trans subM, ?_, ?_, ?_⟩
    · intro fl
      rw [memI fl, memM fl]
      constructor
      · rintro ⟨⟨hin, hcm⟩, hrest'⟩
        refine ⟨hin, ?_⟩
        intro m' hm'
        rcases List.mem_cons.1 hm' with rfl | hm''
        · exact hcm
        · exact hrest' m' hm''
      · rintro ⟨hin, hall⟩
        exact ⟨⟨hin, hall m (List.mem_cons_self _ _)⟩,
               fun m' hm' => hall m' (List.mem_cons_of_mem _ hm')⟩
    · intro k v fn hp
      exact monoI k v fn (monoM k v fn hp)
    · intro m' hm' x hx
      rcases List.mem_cons.1 hm' with rfl | hm''
      · exact monoI _ _ _ (presM x hx)
      · exact presI m' hm'' x hx

theorem parseDeb_file (f : String) (d : Deb) (h : parseDeb f = some d) : d.file = f := by
  simp only [parseDeb] at h
  split at h
  · split at h
    · cases h; rfl
    · cases h; rfl
    · exact absurd h (by simp)
  · exact absurd h (by simp)

theorem parseDeb_isDeb (f : String) (d : Deb) (h : parseDeb f = some d) :
    strEndsWith f ".deb" = true := by
  simp only [parseDeb] at h
  split at h
  · assumption
  · exact absurd h (by simp)

theorem mapM_parse (raw : List RawFile) :
    ∀ debs0, raw.mapM (fun fl => parseDeb fl.fname) = some debs0 →
    debs0.map (·.file) = raw.map (·.fname)
    ∧ (∀ fl ∈ raw, ∃ dd ∈ debs0, parseDeb fl.fname = some dd)
    ∧ (∀ dd ∈ debs0, parseDeb dd.file = some dd) := by
  induction raw with
  | nil =>
    intro debs0 h
    simp only [List.mapM_nil, pure, Option.some.injEq] at h
    subst h
    exact ⟨rfl, fun fl hfl => absurd hfl (List.not_mem_nil fl),
           fun dd hdd => absurd hdd (List.not_mem_nil dd)⟩
  | cons fl t ih =>
    intro debs0 h
    rw [List.mapM_cons] at h
    cases hp : parseDeb fl.fname with
    | none => rw [hp] at h; simp at h
    | some d =>
      rw [hp] at h
      cases ht : t.mapM (fun fl => parseDeb fl.fname) with
      | none => rw [ht] at h; simp at h
      | some ds =>
        rw [ht] at h
        simp only [Option.some_bind, Option.bind_eq_bind] at h
        simp only [bind, Option.bind, pure, Option.some.injEq] at h
        subst h
        obtain ⟨ihf, ihm, ihd⟩ := ih ds ht
        refine ⟨?_, ?_, ?_⟩
        · rw [List.map_cons, List.map_cons, ihf, parseDeb_file _ _ hp]
        · intro fl' hfl'
          rcases List.mem_cons.1 hfl' with rfl | hfl''
          · exact ⟨d, List.mem_cons_self _ _, hp⟩
          · obtain ⟨dd, hdd, hpp⟩ := ihm fl' hfl''
            exact ⟨dd, List.mem_cons_of_mem _ hdd, hpp⟩
        · intro dd hdd
          rcases List.mem_cons.1 hdd with rfl | hdd'
          · rw [parseDeb_file _ _ hp]
            exact hp
          · exact ihd dd hdd'

theorem length_le_one_of_all_eq {α : Type} (l : List α) (f : α → String) (a : String)
    (hnd : (l.map f).Nodup) (hall : ∀ x ∈ l, f x = a) : l.length ≤ 1 := by
  cases l with
  | nil => simp
  | cons x t =>
    cases t with
    | nil => simp
    | cons y u =>
      exfalso
      rw [List.map_cons, List.nodup_cons] at hnd
      have hx := hall x (List.mem_cons_self _ _)
      have hy := hall y (List.mem_cons_of_mem _ (List.mem_cons_self _ _))
      refine hnd.1 ?_
      rw [List.map_cons, List.mem_cons]
      left
      rw [hx, hy]

/-- The distribution-directory invariant of claim C1, for one package
name `n` (not a `-stub` name): after the sweep at most one `.deb` of
name `n` remains, one remains whenever one was present, every remaining
artifact was present before, no artifact of the name that was present
before has a version strictly greater than the survivor's, and every
artifact of the name that was present before has an archived copy under
its computed archive key. -/
def c1Concl (gt : String → String → Bool) (ctrl : String → String → Option String)
    (d n : String) (before after : List RawFile) (archives : Archives) : Prop :=
  (after.filter (debOfName n)).length ≤ 1
  ∧ ((before.filter (debOfName n)) ≠ [] → (after.filter (debOfName n)) ≠ [])
  ∧ (∀ fl ∈ after.filter (debOfName n), fl ∈ before.filter (debOfName n))
  ∧ (∀ fl ∈ after.filter (debOfName n), ∀ fl' ∈ before.filter (debOfName n),
      ∀ dd dd', parseDeb fl.fname = some dd → parseDeb fl'.fname = some dd' →
        gt dd'.version dd.version = false)
  ∧ (∀ fl' ∈ before.filter (debOfName n), ∀ dd', parseDeb fl'.fname = some dd' →
      pairPresent (alGetD archives (finalArchKey ctrl d dd', n) emptyArchive).files
        dd'.version dd'.file)

theorem archiveCore (gt : String → String → Bool)
    (ctrl : String → String → Option String) (d n : String)
    (files : List RawFile) (arch0 : Archives) (debs0 : List Deb)
    (out : List RawFile × Archives)
    (htrans : ∀ a b c, gt a b = true → gt b c = true → gt a c = true)
    (hirr : ∀ a, gt a a = false)
    (hparse : (files.filter (fun fl => strEndsWith fl.fname ".deb")).mapM
        (fun fl => parseDeb fl.fname) = some debs0)
    (hfold : (dedupFirst ((debs0.filter (fun dd => !(strEndsWith dd.name "-stub"))).map
          (·.name))).foldl
        (fun s? m => s?.bind (fun s => archiveName gt ctrl d s
          (groupDebs (debs0.filter (fun dd => !(strEndsWith dd.name "-stub"))) m)))
        (some (files, arch0)) = some out)
    (hfn : (files.map (·.fname)).Nodup)
    (hstub : strEndsWith n "-stub" = false) :
    c1Concl gt ctrl d n files out.1 out.2 := by
  have htransD : ∀ a b c, debBeats gt a b = true → debBeats gt b c = true →
      debBeats gt a c = true := fun a b c hab hbc => htrans _ _ _ hab hbc
  have hirrD : ∀ a, debBeats gt a a = false := fun a => hirr _
  obtain ⟨hfe, hmemr, hdet⟩ :=
    mapM_parse (files.filter (fun fl => strEndsWith fl.fname ".deb")) debs0 hparse
  have hrawnd : ((files.filter (fun fl => strEndsWith fl.fname ".deb")).map (·.fname)).Nodup :=
    List.Nodup.sublist (List.Sublist.map _ (List.filter_sublist _)) hfn
  have hdebs0nd : (debs0.map (·.file)).Nodup := by
    rw [hfe]
    exact hrawnd
  have hdebsnd : ((debs0.filter (fun dd => !(strEndsWith dd.name "-stub"))).map (·.file)).Nodup :=
    List.Nodup.sublist (List.Sublist.map _ (List.filter_sublist _)) hdebs0nd
  have hndAll : ∀ m, ((groupDebs (debs0.filter (fun dd => !(strEndsWith dd.name "-stub"))) m).map
      (·.file)).Nodup := by
    intro m
    exact List.Nodup.sublist (List.Sublist.map _ (List.filter_sublist _)) hdebsnd
  obtain ⟨subF, memF, monoF, presF⟩ :=
    archiveFold_spec gt ctrl d (debs0.filter (fun dd => !(strEndsWith dd.name "-stub")))
      hndAll _ (files, arch0) out hfold
  -- abbreviations
  have hdet0 : ∀ dd ∈ debs0, parseDeb dd.file = some dd := hdet
  -- G1: a file of the directory parsing to name n yields a member of group n
  have hG1 : ∀ fl ∈ files, ∀ dd, parseDeb fl.fname = some dd → dd.name = n →
      dd ∈ groupDebs (debs0.filter (fun dd => !(strEndsWith dd.name "-stub"))) n := by
    intro fl hfl dd hp hn
    have hraw : fl ∈ files.filter (fun fl => strEndsWith fl.fname ".deb") :=
      List.mem_filter.2 ⟨hfl, parseDeb_isDeb _ _ hp⟩
    obtain ⟨dd2, hdd2, hp2⟩ := hmemr fl hraw
    have hdd : dd2 = dd := by
      rw [hp] at hp2
      exact (Option.some.inj hp2).symm
    subst hdd
    have hmem1 : dd2 ∈ debs0.filter (fun dd => !(strEndsWith dd.name "-stub")) := by
      rw [List.mem_filter]
      refine ⟨hdd2, ?_⟩
      rw [hn, hstub]
      rfl
    rw [groupDebs, List.mem_filter]
    refine ⟨hmem1, ?_⟩
    rw [hn]
    exact beq_self_eq_true n
  -- G2: every member of group n corresponds to a directory file
  have hG2 : ∀ dd ∈ groupDebs (debs0.filter (fun dd => !(strEndsWith dd.name "-stub"))) n,
      ∃ fl ∈ files, fl.fname = dd.file := by
    intro dd hdd
    have hdd0 : dd ∈ debs0 := (List.mem_filter.1 ((List.mem_filter.1 hdd).1)).1
    have : dd.file ∈ debs0.map (·.file) := List.mem_map.2 ⟨dd, hdd0, rfl⟩
    rw [hfe] at this
    obtain ⟨fl, hfl, hfn'⟩ := List.mem_map.1 this
    exact ⟨fl, (List.mem_filter.1 hfl).1, hfn'⟩
  -- G3: members of any group parse to themselves
  have hG3 : ∀ m, ∀ dd ∈ groupDebs (debs0.filter (fun dd => !(strEndsWith dd.name "-stub"))) m,
      parseDeb dd.file = some dd := by
    intro m dd hdd
    exact hdet0 dd ((List.mem_filter.1 ((List.mem_filter.1 hdd).1)).1)
  -- G4: members of group m have name m
  have hG4 : ∀ m, ∀ dd ∈ groupDebs (debs0.filter (fun dd => !(strEndsWith dd.name "-stub"))) m,
      dd.name = m := by
    intro m dd hdd
    have := (List.mem_filter.1 hdd).2
    exact beq_iff_eq.1 this
  -- membership of n in the name list when its group is inhabited
  have hGnames : ∀ dd ∈ groupDebs (debs0.filter (fun dd => !(strEndsWith dd.name "-stub"))) n,
      n ∈ dedupFirst ((debs0.filter (fun dd => !(strEndsWith dd.name "-stub"))).map (·.name)) := by
    intro dd hdd
    rw [mem_dedupFirst]
    exact List.mem_map.2 ⟨dd, (List.mem_filter.1 hdd).1, hG4 n dd hdd⟩
  -- every artifact of name n remaining after the sweep carries the winner's file name
  have hA : ∀ fl ∈ out.1.filter (debOfName n), ∃ dd,
      parseDeb fl.fname = some dd ∧ dd.name = n
      ∧ dd ∈ groupDebs (debs0.filter (fun dd => !(strEndsWith dd.name "-stub"))) n
      ∧ (winnerOf gt (groupDebs (debs0.filter (fun dd => !(strEndsWith dd.name "-stub"))) n)).map
          (·.file) = some fl.fname := by
    intro fl hfl
    obtain ⟨hout, hdn⟩ := List.mem_filter.1 hfl
    rw [debOfName] at hdn
    cases hp : parseDeb fl.fname with
    | none => rw [hp] at hdn; simp at hdn
    | some dd =>
      rw [hp] at hdn
      have hn : dd.name = n := beq_iff_eq.1 hdn
      have hin := (memF fl).1 hout
      have hgrp := hG1 fl hin.1 dd hp hn
      have hnn := hGnames dd hgrp
      have hcond := hin.2 n hnn
      rcases hcond with hcond | hcond
      · exfalso
        refine hcond ?_
        refine List.mem_map.2 ⟨dd, hgrp, ?_⟩
        exact parseDeb_file _ _ hp
      · exact ⟨dd, rfl, hn, hgrp, hcond⟩
  refine ⟨?_, ?_, ?_, ?_, ?_⟩
  · -- at most one artifact of name n remains
    have hndaft : ((out.1.filter (debOfName n)).map (·.fname)).Nodup :=
      List.Nodup.sublist (List.Sublist.map _ ((List.filter_sublist _).trans subF)) hfn
    cases hg : groupDebs (debs0.filter (fun dd => !(strEndsWith dd.name "-stub"))) n with
    | nil =>
      cases haft : out.1.filter (debOfName n) with
      | nil => simp [haft]
      | cons a t =>
        exfalso
        obtain ⟨dd, _, _, hgrp, _⟩ := hA a (haft ▸ List.mem_cons_self a t)
        rw [hg] at hgrp
        exact absurd hgrp (List.not_mem_nil dd)
    | cons g0 gs =>
      refine length_le_one_of_all_eq _ (·.fname) ((scanMax (debBeats gt) g0 gs).file) hndaft ?_
      intro fl hfl
      obtain ⟨dd, _, _, _, hwin⟩ := hA fl hfl
      rw [hg, winnerOf, Option.map_some'] at hwin
      exact (Option.some.inj hwin).symm
  · -- one remains when one was present before
    intro hbef
    obtain ⟨fl0, hfl0⟩ := List.exists_mem_of_ne_nil _ hbef
    obtain ⟨hfl0f, hdn0⟩ := List.mem_filter.1 hfl0
    rw [debOfName] at hdn0
    cases hp0 : parseDeb fl0.fname with
    | none => rw [hp0] at hdn0; simp at hdn0
    | some dd0 =>
      rw [hp0] at hdn0
      have hn0 : dd0.name = n := beq_iff_eq.1 hdn0
      have hgrp0 := hG1 fl0 hfl0f dd0 hp0 hn0
      cases hg : groupDebs (debs0.filter (fun dd => !(strEndsWith dd.name "-stub"))) n with
      | nil => rw [hg] at hgrp0; exact absurd hgrp0 (List.not_mem_nil dd0)
      | cons g0 gs =>
        have hwmem : scanMax (debBeats gt) g0 gs ∈
            groupDebs (debs0.filter (fun dd => !(strEndsWith dd.name "-stub"))) n := by
          rw [hg]
          exact scanMax_mem _ g0 gs
        obtain ⟨flw, hflw, hflwf⟩ := hG2 _ hwmem
        have hflwIn : flw ∈ out.1 := by
          rw [memF flw]
          refine ⟨hflw, ?_⟩
          intro m hm
          by_cases hmem2 : flw.fname ∈
              (groupDebs (debs0.filter (fun dd => !(strEndsWith dd.name "-stub"))) m).map (·.file)
          · right
            obtain ⟨ddm, hddm, hddmf⟩ := List.mem_map.1 hmem2
            have hddm0 : ddm = scanMax (debBeats gt) g0 gs := by
              have hp1 := hG3 m ddm hddm
              have hp2 := hG3 n _ hwmem
              rw [hddmf, hflwf] at hp1
              rw [hp1] at hp2
              exact Option.some.inj hp2
            have hmn : m = n := by
              have := hG4 m ddm hddm
              rw [hddm0] at this
              rw [← this]
              exact hG4 n _ hwmem
            subst hmn
            rw [hg, winnerOf, Option.map_some', hflwf]
          · exact Or.inl hmem2
        have hflwDeb : debOfName n flw = true := by
          rw [debOfName, hflwf, hG3 n _ hwmem]
          simp [hG4 n _ hwmem]
        have : flw ∈ out.1.filter (debOfName n) := List.mem_filter.2 ⟨hflwIn, hflwDeb⟩
        intro hc
        rw [hc] at this
        exact absurd this (List.not_mem_nil flw)
  · -- every surviving artifact was present before
    intro fl hfl
    obtain ⟨hout, hdn⟩ := List.mem_filter.1 hfl
    exact List.mem_filter.2 ⟨((memF fl).1 hout).1, hdn⟩
  · -- nothing present before strictly beats the survivor
    intro fl hfl fl' hfl' dd dd' hp hp'
    obtain ⟨dda, hpa, hna, hgrpa, hwina⟩ := hA fl hfl
    obtain ⟨hfl'f, hdn'⟩ := List.mem_filter.1 hfl'
    rw [debOfName, hp'] at hdn'
    have hn' : dd'.name = n := beq_iff_eq.1 hdn'
    have hgrp' := hG1 fl' hfl'f dd' hp' hn'
    cases hg : groupDebs (debs0.filter (fun dd => !(strEndsWith dd.name "-stub"))) n with
    | nil => rw [hg] at hgrp'; exact absurd hgrp' (List.not_mem_nil dd')
    | cons g0 gs =>
      rw [hg, winnerOf, Option.map_some'] at hwina
      have hfw : fl.fname = (scanMax (debBeats gt) g0 gs).file := (Option.some.inj hwina).symm
      have hdd : dd = scanMax (debBeats gt) g0 gs := by
        have hpw : parseDeb (scanMax (debBeats gt) g0 gs).file
            = some (scanMax (debBeats gt) g0 gs) := by
          refine hG3 n _ ?_
          rw [hg]
          exact scanMax_mem _ g0 gs
        rw [← hfw] at hpw
        rw [hp] at hpw
        exact Option.some.inj hpw
      rw [hg] at hgrp'
      have hres := scanMax_not_beaten (debBeats gt) htransD hirrD g0 gs dd' hgrp'
      rw [hdd]
      exact hres
  · -- every artifact of the name present before has an archived copy
    intro fl' hfl' dd' hp'
    obtain ⟨hfl'f, hdn'⟩ := List.mem_filter.1 hfl'
    rw [debOfName, hp'] at hdn'
    have hn' : dd'.name = n := beq_iff_eq.1 hdn'
    have hgrp' := hG1 fl' hfl'f dd' hp' hn'
    have := presF n (hGnames dd' hgrp') dd' hgrp'
    rw [keyOf, hn'] at this
    exact this

theorem archiveDistribution_self (gt : String → String → Bool)
    (ctrl : String → String → Option String) (d : String) (st st' : RepoState) (n : String)
    (htrans : ∀ a b c, gt a b = true → gt b c = true → gt a c = true)
    (hirr : ∀ a, gt a a = false)
    (h : archiveDistribution gt ctrl d st = some st')
    (hfn : ((alGetD st.dists d []).map (·.fname)).Nodup)
    (hstub : strEndsWith n "-stub" = false) :
    c1Concl gt ctrl d n (alGetD st.dists d []) (alGetD st'.dists d []) st'.archives := by
  simp only [archiveDistribution] at h
  cases hmm : ((alGetD st.dists d []).filter (fun fl => strEndsWith fl.fname ".deb")).mapM
      (fun fl => parseDeb fl.fname) with
  | none => rw [hmm] at h; simp at h
  | some debs0 =>
    rw [hmm] at h
    simp only [] at h
    cases hfold : (dedupFirst ((debs0.filter (fun dd => !(strEndsWith dd.name "-stub"))).map
        (·.name))).foldl
        (fun s? m => s?.bind (fun s => archiveName gt ctrl d s
          (groupDebs (debs0.filter (fun dd => !(strEndsWith dd.name "-stub"))) m)))
        (some (alGetD st.dists d [], st.archives)) with
    | none => rw [hfold] at h; simp at h
    | some out =>
      rw [hfold] at h
      simp only [Option.map_some', Option.some.injEq] at h
      subst h
      have hcore := archiveCore gt ctrl d n (alGetD st.dists d []) st.archives debs0 out
        htrans hirr hmm hfold hfn hstub
      show c1Concl gt ctrl d n (alGetD st.dists d [])
        (alGetD (alSet st.dists d out.1) d []) out.2
      rw [alGetD_alSet_self]
      exact hcore

theorem archiveDistribution_other (gt : String → String → Bool)
    (ctrl : String → String → Option String) (dproc d : String) (st st' : RepoState)
    (h : archiveDistribution gt ctrl dproc st = some st') (hne : d ≠ dproc) :
    alGetD st'.dists d [] = alGetD st.dists d [] := by
  simp only [archiveDistribution] at h
  cases hmm : ((alGetD st.dists dproc []).filter (fun fl => strEndsWith fl.fname ".deb")).mapM
      (fun fl => parseDeb fl.fname) with
  | none => rw [hmm] at h; simp at h
  | some debs0 =>
    rw [hmm] at h
    simp only [] at h
    cases hfold : (dedupFirst ((debs0.filter (fun dd => !(strEndsWith dd.name "-stub"))).map
        (·.name))).foldl
        (fun s? m => s?.bind (fun s => archiveName gt ctrl dproc s
          (groupDebs (debs0.filter (fun dd => !(strEndsWith dd.name "-stub"))) m)))
        (some (alGetD st.dists dproc [], st.archives)) with
    | none => rw [hfold] at h; simp at h
    | some out =>
      rw [hfold] at h
      simp only [Option.map_some', Option.some.injEq] at h
      subst h
      show alGetD (alSet st.dists dproc out.1) d [] = alGetD st.dists d []
      exact alGetD_alSet_ne _ _ _ _ _ hne

theorem archiveScan_mono (gt : String → String → Bool)
    (ctrl : String → String → Option String) (distribution : String) (ds : List Deb) :
    ∀ (c : Deb) (s out : List RawFile × Archives) (w : Deb),
      archiveScan gt ctrl distribution s c ds = some (out, w) →
      ∀ k v fn, pairPresent (alGetD s.2 k emptyArchive).files v fn →
        pairPresent (alGetD out.2 k emptyArchive).files v fn := by
  induction ds with
  | nil =>
    intro c s out w h k v fn hp
    rw [archiveScan] at h
    simp only [Option.some.injEq, Prod.mk.injEq] at h
    obtain ⟨h5, h6⟩ := h
    subst h5
    exact hp
  | cons d ds ih =>
    intro c s out w h k v fn hp
    rw [archiveScan] at h
    by_cases hgt : gt d.version c.version = true
    · rw [if_pos hgt, if_pos hgt] at h
      cases hdm : doMove gt ctrl distribution s c false with
      | none => rw [hdm] at h; simp at h
      | some s1 =>
        rw [hdm] at h
        obtain ⟨-, -, hmono1⟩ := doMove_spec _ _ _ _ _ _ _ hdm
        exact ih d s1 out w h k v fn (hmono1 k v fn hp)
    · rw [if_neg hgt, if_neg hgt] at h
      cases hdm : doMove gt ctrl distribution s d false with
      | none => rw [hdm] at h; simp at h
      | some s1 =>
        rw [hdm] at h
        obtain ⟨-, -, hmono1⟩ := doMove_spec _ _ _ _ _ _ _ hdm
        exact ih c s1 out w h k v fn (hmono1 k v fn hp)

theorem archiveName_mono (gt : String → String → Bool)
    (ctrl : String → String → Option String) (distribution : String)
    (g : List Deb) (s out : List RawFile × Archives)
    (h : archiveName gt ctrl distribution s g = some out) :
    ∀ k v fn, pairPresent (alGetD s.2 k emptyArchive).files v fn →
      pairPresent (alGetD out.2 k emptyArchive).files v fn := by
  intro k v fn hp
  cases g with
  | nil =>
    rw [archiveName] at h
    simp only [Option.some.injEq] at h
    subst h
    exact hp
  | cons d ds =>
    rw [archiveName] at h
    cases hscan : archiveScan gt ctrl distribution s d ds with
    | none => rw [hscan] at h; simp at h
    | some pr =>
      obtain ⟨s', w⟩ := pr
      rw [hscan] at h
      obtain ⟨-, -, hmono2⟩ := doMove_spec _ _ _ _ _ _ _ h
      exact hmono2 k v fn
        (archiveScan_mono gt ctrl distribution ds d s s' w hscan k v fn hp)

theorem archiveFold_mono (gt : String → String → Bool)
    (ctrl : String → String → Option String) (distribution : String)
    (debs : List Deb) (names : List String) :
    ∀ (s out : List RawFile × Archives),
    (names.foldl (fun s? m => s?.bind (fun s =>
        archiveName gt ctrl distribution s (groupDebs debs m))) (some s)) = some out →
    ∀ k v fn, pairPresent (alGetD s.2 k emptyArchive).files v fn →
      pairPresent (alGetD out.2 k emptyArchive).files v fn := by
  induction names with
  | nil =>
    intro s out h k v fn hp
    simp only [List.foldl_nil, Option.some.injEq] at h
    subst h
    exact hp
  | cons m names ih =>
    intro s out h k v fn hp
    obtain ⟨s1, hstep, hrest⟩ := foldlBind_cons _ _ _ _ _ h
    exact ih s1 out hrest k v fn
      (archiveName_mono gt ctrl distribution (groupDebs debs m) s s1 hstep k v fn hp)

theorem archiveDistribution_mono (gt : String → String → Bool)
    (ctrl : String → String → Option String) (dproc : String) (st st' : RepoState)
    (h : archiveDistribution gt ctrl dproc st = some st') :
    ∀ k v fn, pairPresent (alGetD st.archives k emptyArchive).files v fn →
      pairPresent (alGetD st'.archives k emptyArchive).files v fn := by
  simp only [archiveDistribution] at h
  cases hmm : ((alGetD st.dists dproc []).filter (fun fl => strEndsWith fl.fname ".deb")).mapM
      (fun fl => parseDeb fl.fname) with
  | none => rw [hmm] at h; simp at h
  | some debs0 =>
    rw [hmm] at h
    simp only [] at h
    cases hfold : (dedupFirst ((debs0.filter (fun dd => !(strEndsWith dd.name "-stub"))).map
        (·.name))).foldl
        (fun s? m => s?.bind (fun s => archiveName gt ctrl dproc s
          (groupDebs (debs0.filter (fun dd => !(strEndsWith dd.name "-stub"))) m)))
        (some (alGetD st.dists dproc [], st.archives)) with
    | none => rw [hfold] at h; simp at h
    | some out =>
      rw [hfold] at h
      simp only [Option.map_some', Option.some.injEq] at h
      subst h
      exact archiveFold_mono gt ctrl dproc
        (debs0.filter (fun dd => !(strEndsWith dd.name "-stub"))) _
        (alGetD st.dists dproc [], st.archives) out hfold

theorem sync_preserve (gt : String → String → Bool)
    (ctrl : String → String → Option String) (dl : List String) (d : String) :
    ∀ st st', syncRepository gt ctrl dl st = some st' → d ∉ dl →
      alGetD st'.dists d [] = alGetD st.dists d [] := by
  induction dl with
  | nil =>
    intro st st' h _
    rw [syncRepository] at h
    simp only [List.foldl_nil, Option.some.injEq] at h
    subst h
    rfl
  | cons d0 dl ih =>
    intro st st' h hnm
    rw [syncRepository] at h
    obtain ⟨st1, hstep, hrest⟩ := foldlBind_cons (archiveDistribution gt ctrl) d0 dl st st' h
    have hd0 : d ≠ d0 := fun hc => hnm (hc ▸ List.mem_cons_self _ _)
    have h1 := archiveDistribution_other gt ctrl d0 d st st1 hstep hd0
    have h2 := ih st1 st' hrest (fun hc => hnm (List.mem_cons_of_mem _ hc))
    rw [h2, h1]

theorem sync_mono (gt : String → String → Bool)
    (ctrl : String → String → Option String) (dl : List String) :
    ∀ st st', syncRepository gt ctrl dl st = some st' →
      ∀ k v fn, pairPresent (alGetD st.archives k emptyArchive).files v fn →
        pairPresent (alGetD st'.archives k emptyArchive).files v fn := by
  induction dl with
  | nil =>
    intro st st' h k v fn hp
    rw [syncRepository] at h
    simp only [List.foldl_nil, Option.some.injEq] at h
    subst h
    exact hp
  | cons d0 dl ih =>
    intro st st' h k v fn hp
    rw [syncRepository] at h
    obtain ⟨st1, hstep, hrest⟩ := foldlBind_cons (archiveDistribution gt ctrl) d0 dl st st' h
    exact ih st1 st' hrest k v fn (archiveDistribution_mono gt ctrl d0 st st1 hstep k v fn hp)

/-- Claim C1, amended: for every repository state, distribution `d`
among the swept distributions, and package name `n` *not ending in
`-stub`* (stub packages are skipped by the archiver and left in place),
after a successful `syncRepository` the distribution directory of `d`
contains at most one `.deb` artifact of name `n`; one remains whenever
at least one was present at the time of the call, it is one of the
artifacts present at the time of the call, and no artifact of name `n`
present at the time of the call has a strictly greater version under
the external comparator (assumed transitive and irreflexive); moreover
every artifact of name `n` present at the time of the call — losers
moved, the winner back-linked as a copy — has an archived copy under
its computed archive key.  (The file names of the swept directory are
distinct, as directory listings are, and the distribution list has no
duplicates, as `lsdir` yields.) -/
theorem claim_C1 (gt : String → String → Bool)
    (ctrl : String → String → Option String) (dl : List String)
    (st st' : RepoState) (d n : String)
    (htrans : ∀ a b c, gt a b = true → gt b c = true → gt a c = true)
    (hirr : ∀ a, gt a a = false)
    (hnd : dl.Nodup)
    (hdmem : d ∈ dl)
    (hfn : ((alGetD st.dists d []).map (·.fname)).Nodup)
    (hstub : strEndsWith n "-stub" = false)
    (hsync : syncRepository gt ctrl dl st = some st') :
    c1Concl gt ctrl d n (alGetD st.dists d []) (alGetD st'.dists d []) st'.archives := by
  induction dl generalizing st with
  | nil => exact absurd hdmem (List.not_mem_nil d)
  | cons d0 dl ih =>
    rw [syncRepository] at hsync
    obtain ⟨st1, hstep, hrest⟩ :=
      foldlBind_cons (archiveDistribution gt ctrl) d0 dl st st' hsync
    have hrest' : syncRepository gt ctrl dl st1 = some st' := hrest
    rcases List.mem_cons.1 hdmem with rfl | hdl
    · have hnotin : d ∉ dl := (List.nodup_cons.1 hnd).1
      have hself := archiveDistribution_self gt ctrl d st st1 n htrans hirr hstep hfn hstub
      have hpres := sync_preserve gt ctrl dl d st1 st' hrest' hnotin
      have hmono := sync_mono gt ctrl dl st1 st' hrest'
      rw [c1Concl] at hself ⊢
      rw [hpres]
      obtain ⟨h1, h2, h3, h4, h5⟩ := hself
      exact ⟨h1, h2, h3, h4, fun fl' hm dd' hp => hmono _ _ _ (h5 fl' hm dd' hp)⟩
    · have hd0 : d ≠ d0 := by
        intro hc
        exact (List.nodup_cons.1 hnd).1 (hc ▸ hdl)
      have hkeep := archiveDistribution_other gt ctrl d0 d st st1 hstep hd0
      have hfn1 : ((alGetD st1.dists d []).map (·.fname)).Nodup := by
        rw [hkeep]
        exact hfn
      have := ih st1 (List.nodup_cons.1 hnd).2 hdl hfn1 hrest'
      rw [c1Concl] at this ⊢
      rw [← hkeep]
      exact this

/-- A stub package, two versions. -/
def c1StubF1 : RawFile := ⟨"foo-stub_1.0_amd64.deb", "s1", none⟩

/-- A stub package, second version. -/
def c1StubF2 : RawFile := ⟨"foo-stub_2.0_amd64.deb", "s2", none⟩

/-- A repository whose distribution `foo` holds two versions of a
`-stub` package. -/
def c1StubState : RepoState := ⟨[("foo", [c1StubF1, c1StubF2])], []⟩

/-- Claim C1, counterexample: the archiver skips every package whose
name ends in `-stub`, so after a *successful* `syncRepository` the
distribution still contains **two** `.deb` artifacts of the package
name `foo-stub` — contradicting "at most one `.deb` artifact per
package name". -/
theorem claim_C1_cex :
    (syncRepository lenGt (fun _ _ => none) ["foo"] c1StubState).map
      (fun st' => ((alGetD st'.dists "foo" []).filter (debOfName "foo-stub")).length)
    = some 2 := by
  decide

/-- Witness artifact, version `9`. -/
def c1wF1 : RawFile := ⟨"pkg_9_amd64.deb", "w1", none⟩

/-- Witness artifact, version `10` (beats `9` under `lenGt`). -/
def c1wF2 : RawFile := ⟨"pkg_10_amd64.deb", "w2", none⟩

/-- The witness repository before synchronization. -/
def c1wState : RepoState := ⟨[("foo", [c1wF1, c1wF2])], []⟩

/-- The witness repository after synchronization: only version `10`
remains in the distribution, both versions archived.  Base `10`'s
versions array is empty in the persisted catalog: the final
`maxVersion` recompute shifted `10` out of it before the write. -/
def c1wPost : RepoState :=
  ⟨[("foo", [⟨"pkg_10_amd64.deb", "w2", none⟩])],
   [(("foo", "pkg"),
     ⟨["9", "10"],
      [⟨"9", "pkg_9_amd64.deb", "w1", none⟩, ⟨"10", "pkg_10_amd64.deb", "w2", none⟩],
      some ⟨[("9", ⟨"9", ["9"]⟩), ("10", ⟨"10", []⟩)], some "10"⟩⟩)]⟩

/-- Claim C1, witness: the amended theorem applied to a concrete
two-version repository. -/
theorem claim_C1_witness :
    c1Concl lenGt (fun _ _ => none) "foo" "pkg"
      (alGetD c1wState.dists "foo" []) (alGetD c1wPost.dists "foo" []) c1wPost.archives :=
  claim_C1 lenGt (fun _ _ => none) ["foo"] c1wState c1wPost "foo" "pkg"
    lenGt_trans lenGt_irr (by decide) (by decide) (by decide) (by decide) (by decide)

end WpkgModel
